import Mathlib

/-!
Verification of the numerical kernel layer of the acoular/beamfpy repository.

The frequency-domain kernels in `src/acoular/fastFuncs.py` work on complex
double-precision arrays.  We embed them over an exact computable complex type
`Cx` (pairs of rationals), translating every loop of the source either into a
`Finset.range` sum (pure accumulations) or into an explicit recursion over the
loop counters (in-place array updates).  The math-library calls `np.cos`,
`np.sin` and the `np.float32` rounding of the phase argument are external to
the repository, so the embedded kernels are parametric in three functions
`cosF sinF f32 : ℚ → ℚ`; every theorem below holds for all instantiations.

The moving-source retarded-time solver and the source-sample generators of
`src/beamfpy/sources.py` are embedded over `ℚ` as well, with the external
`numpy.sqrt` represented by a parameter `sqrtF : ℚ → ℚ`, again following the
source line by line.
-/

/-- Computable complex numbers: pairs of rationals, embedding numpy's
`complex128` values used by `fastFuncs.py` (exact arithmetic). -/
structure Cx where
  re : ℚ
  im : ℚ
deriving DecidableEq, Repr

namespace Cx

theorem ext {a b : Cx} (hre : a.re = b.re) (him : a.im = b.im) : a = b := by
  cases a; cases b; cases hre; cases him; rfl

instance : Zero Cx := ⟨⟨0, 0⟩⟩

instance : One Cx := ⟨⟨1, 0⟩⟩

instance : Add Cx := ⟨fun a b => ⟨a.re + b.re, a.im + b.im⟩⟩

instance : Neg Cx := ⟨fun a => ⟨-a.re, -a.im⟩⟩

instance : Mul Cx := ⟨fun a b => ⟨a.re * b.re - a.im * b.im, a.re * b.im + a.im * b.re⟩⟩

@[simp] theorem zero_re : (0 : Cx).re = 0 := rfl

@[simp] theorem zero_im : (0 : Cx).im = 0 := rfl

@[simp] theorem one_re : (1 : Cx).re = 1 := rfl

@[simp] theorem one_im : (1 : Cx).im = 0 := rfl

@[simp] theorem add_re (a b : Cx) : (a + b).re = a.re + b.re := rfl

@[simp] theorem add_im (a b : Cx) : (a + b).im = a.im + b.im := rfl

@[simp] theorem neg_re (a : Cx) : (-a).re = -a.re := rfl

@[simp] theorem neg_im (a : Cx) : (-a).im = -a.im := rfl

@[simp] theorem mul_re (a b : Cx) : (a * b).re = a.re * b.re - a.im * b.im := rfl

@[simp] theorem mul_im (a b : Cx) : (a * b).im = a.re * b.im + a.im * b.re := rfl

instance : CommRing Cx where
  add_assoc a b c := ext (add_assoc _ _ _) (add_assoc _ _ _)
  zero_add a := ext (zero_add _) (zero_add _)
  add_zero a := ext (add_zero _) (add_zero _)
  add_comm a b := ext (add_comm _ _) (add_comm _ _)
  left_distrib a b c := ext (by simp; ring) (by simp; ring)
  right_distrib a b c := ext (by simp; ring) (by simp; ring)
  zero_mul a := ext (by simp) (by simp)
  mul_zero a := ext (by simp) (by simp)
  mul_assoc a b c := ext (by simp; ring) (by simp; ring)
  one_mul a := ext (by simp) (by simp)
  mul_one a := ext (by simp) (by simp)
  neg_add_cancel a := ext (by simp) (by simp)
  mul_comm a b := ext (by simp; ring) (by simp; ring)
  nsmul := nsmulRec
  zsmul := zsmulRec

/-- Complex conjugation, embedding `.conjugate()` from the source. -/
def conj (a : Cx) : Cx := ⟨a.re, -a.im⟩

@[simp] theorem conj_re (a : Cx) : a.conj.re = a.re := rfl

@[simp] theorem conj_im (a : Cx) : a.conj.im = -a.im := rfl

theorem conj_add (a b : Cx) : (a + b).conj = a.conj + b.conj := by
  apply ext <;> simp <;> ring

theorem conj_mul (a b : Cx) : (a * b).conj = a.conj * b.conj := by
  apply ext <;> simp <;> ring

@[simp] theorem conj_conj (a : Cx) : a.conj.conj = a := by
  apply ext <;> simp

@[simp] theorem conj_zero : (0 : Cx).conj = 0 := rfl

/-- Embedding of a real scalar into `Cx`. -/
def ofRat (q : ℚ) : Cx := ⟨q, 0⟩

@[simp] theorem ofRat_re (q : ℚ) : (ofRat q).re = q := rfl

@[simp] theorem ofRat_im (q : ℚ) : (ofRat q).im = 0 := rfl

/-- Multiplication of a complex value by a real scalar from the right,
embedding numpy's `complexArray * floatScalar`. -/
def mulQ (a : Cx) (q : ℚ) : Cx := ⟨a.re * q, a.im * q⟩

/-- Division of a complex value by a real scalar, embedding numpy's
`complexArray / floatScalar`. -/
def divQ (a : Cx) (q : ℚ) : Cx := ⟨a.re / q, a.im / q⟩

/-- Real part of a finite sum is the sum of real parts. -/
theorem re_sum {α : Type} (s : Finset α) (f : α → Cx) :
    (∑ x ∈ s, f x).re = ∑ x ∈ s, (f x).re := by
  classical
  induction s using Finset.induction_on with
  | empty => simp
  | insert hx ih => rename_i a s'; rw [Finset.sum_insert hx, Finset.sum_insert hx, add_re, ih]

/-- Imaginary part of a finite sum is the sum of imaginary parts. -/
theorem im_sum {α : Type} (s : Finset α) (f : α → Cx) :
    (∑ x ∈ s, f x).im = ∑ x ∈ s, (f x).im := by
  classical
  induction s using Finset.induction_on with
  | empty => simp
  | insert hx ih => rename_i a s'; rw [Finset.sum_insert hx, Finset.sum_insert hx, add_im, ih]

/-- Conjugation commutes with finite sums. -/
theorem conj_sum {α : Type} (s : Finset α) (f : α → Cx) :
    (∑ x ∈ s, f x).conj = ∑ x ∈ s, (f x).conj := by
  classical
  induction s using Finset.induction_on with
  | empty => simp
  | insert hx ih =>
      rename_i a s'
      rw [Finset.sum_insert hx, Finset.sum_insert hx, conj_add, ih]

theorem add_conj_self (a : Cx) : a + a.conj = ofRat (2 * a.re) := by
  apply ext <;> simp <;> ring

theorem mul_conj_self_im (a : Cx) : (a * a.conj).im = 0 := by
  simp; ring

theorem ofRat_mul_re (q : ℚ) (a : Cx) : (ofRat q * a).re = q * a.re := by
  simp

end Cx

/-- The phasor `cos x - 1j * sin x` built in every steering-vector loop of
`fastFuncs.py`; `cosF`/`sinF` stand for the external `np.cos`/`np.sin`. -/
def cisNeg (cosF sinF : ℚ → ℚ) (x : ℚ) : Cx := ⟨cosF x, -(sinF x)⟩

/-- Embeds `_freqBeamformer_Formulation1AkaClassic_FullCSM` of
`fastFuncs.py`: steering vector `cos - j sin` of `f32(k * dist[m])`, the
Hermitian-reduced quadratic form over the upper triangle plus diagonal, and
division by `nMics^2` times the signal-loss normalization. -/
def freqBeamformer_Formulation1AkaClassic_FullCSM (nMics : ℕ) (cosF sinF f32 : ℚ → ℚ)
    (csm : ℕ → ℕ → Cx) (distGridToArrayCenter : ℚ) (distGridToAllMics : ℕ → ℚ)
    (waveNumber signalLossNormalization : ℚ) : ℚ :=
  let _ := distGridToArrayCenter
  let steerVec : ℕ → Cx := fun m => cisNeg cosF sinF (f32 (waveNumber * distGridToAllMics m))
  let scalarProd : ℚ := ∑ c ∈ Finset.range nMics,
    (2 * ((∑ r ∈ Finset.range c, csm r c * (steerVec r).conj) * steerVec c).re
      + (csm c c * (steerVec c).conj * steerVec c).re)
  let normalizeFactor : ℚ := (nMics : ℚ)
  scalarProd / (normalizeFactor * normalizeFactor) * signalLossNormalization

/-- Embeds `_freqBeamformer_Formulation1AkaClassic_CsmRemovedDiag` of
`fastFuncs.py`: same as the full-CSM variant but without the diagonal term. -/
def freqBeamformer_Formulation1AkaClassic_CsmRemovedDiag (nMics : ℕ) (cosF sinF f32 : ℚ → ℚ)
    (csm : ℕ → ℕ → Cx) (distGridToArrayCenter : ℚ) (distGridToAllMics : ℕ → ℚ)
    (waveNumber signalLossNormalization : ℚ) : ℚ :=
  let _ := distGridToArrayCenter
  let steerVec : ℕ → Cx := fun m => cisNeg cosF sinF (f32 (waveNumber * distGridToAllMics m))
  let scalarProd : ℚ := ∑ c ∈ Finset.range nMics,
    2 * ((∑ r ∈ Finset.range c, csm r c * (steerVec r).conj) * steerVec c).re
  let normalizeFactor : ℚ := (nMics : ℚ)
  scalarProd / (normalizeFactor * normalizeFactor) * signalLossNormalization

/-- Embeds `_freqBeamformer_Formulation2AkaInverse_FullCSM` of `fastFuncs.py`:
phasor scaled by `dist[m]`, normalization `(nMics * distCenter)^2`. -/
def freqBeamformer_Formulation2AkaInverse_FullCSM (nMics : ℕ) (cosF sinF f32 : ℚ → ℚ)
    (csm : ℕ → ℕ → Cx) (distGridToArrayCenter : ℚ) (distGridToAllMics : ℕ → ℚ)
    (waveNumber signalLossNormalization : ℚ) : ℚ :=
  let steerVec : ℕ → Cx := fun m =>
    (cisNeg cosF sinF (f32 (waveNumber * distGridToAllMics m))).mulQ (distGridToAllMics m)
  let scalarProd : ℚ := ∑ c ∈ Finset.range nMics,
    (2 * ((∑ r ∈ Finset.range c, csm r c * (steerVec r).conj) * steerVec c).re
      + (csm c c * (steerVec c).conj * steerVec c).re)
  let normalizeFactor : ℚ := (nMics : ℚ) * distGridToArrayCenter
  scalarProd / (normalizeFactor * normalizeFactor) * signalLossNormalization

/-- Embeds `_freqBeamformer_Formulation2AkaInverse_CsmRemovedDiag` of
`fastFuncs.py`. -/
def freqBeamformer_Formulation2AkaInverse_CsmRemovedDiag (nMics : ℕ) (cosF sinF f32 : ℚ → ℚ)
    (csm : ℕ → ℕ → Cx) (distGridToArrayCenter : ℚ) (distGridToAllMics : ℕ → ℚ)
    (waveNumber signalLossNormalization : ℚ) : ℚ :=
  let steerVec : ℕ → Cx := fun m =>
    (cisNeg cosF sinF (f32 (waveNumber * distGridToAllMics m))).mulQ (distGridToAllMics m)
  let scalarProd : ℚ := ∑ c ∈ Finset.range nMics,
    2 * ((∑ r ∈ Finset.range c, csm r c * (steerVec r).conj) * steerVec c).re
  let normalizeFactor : ℚ := (nMics : ℚ) * distGridToArrayCenter
  scalarProd / (normalizeFactor * normalizeFactor) * signalLossNormalization

/-- Embeds `_freqBeamformer_Formulation3AkaTrueLevel_FullCSM` of
`fastFuncs.py`: phasor divided by `dist[m]`, normalization
`(distCenter * sum 1/dist[m]^2)^2`. -/
def freqBeamformer_Formulation3AkaTrueLevel_FullCSM (nMics : ℕ) (cosF sinF f32 : ℚ → ℚ)
    (csm : ℕ → ℕ → Cx) (distGridToArrayCenter : ℚ) (distGridToAllMics : ℕ → ℚ)
    (waveNumber signalLossNormalization : ℚ) : ℚ :=
  let helpNormalize : ℚ := ∑ m ∈ Finset.range nMics,
    1 / (distGridToAllMics m * distGridToAllMics m)
  let steerVec : ℕ → Cx := fun m =>
    (cisNeg cosF sinF (f32 (waveNumber * distGridToAllMics m))).divQ (distGridToAllMics m)
  let scalarProd : ℚ := ∑ c ∈ Finset.range nMics,
    (2 * ((∑ r ∈ Finset.range c, csm r c * (steerVec r).conj) * steerVec c).re
      + (csm c c * (steerVec c).conj * steerVec c).re)
  let normalizeFactor : ℚ := distGridToArrayCenter * helpNormalize
  scalarProd / (normalizeFactor * normalizeFactor) * signalLossNormalization

/-- Embeds `_freqBeamformer_Formulation3AkaTrueLevel_CsmRemovedDiag` of
`fastFuncs.py`. -/
def freqBeamformer_Formulation3AkaTrueLevel_CsmRemovedDiag (nMics : ℕ) (cosF sinF f32 : ℚ → ℚ)
    (csm : ℕ → ℕ → Cx) (distGridToArrayCenter : ℚ) (distGridToAllMics : ℕ → ℚ)
    (waveNumber signalLossNormalization : ℚ) : ℚ :=
  let helpNormalize : ℚ := ∑ m ∈ Finset.range nMics,
    1 / (distGridToAllMics m * distGridToAllMics m)
  let steerVec : ℕ → Cx := fun m =>
    (cisNeg cosF sinF (f32 (waveNumber * distGridToAllMics m))).divQ (distGridToAllMics m)
  let scalarProd : ℚ := ∑ c ∈ Finset.range nMics,
    2 * ((∑ r ∈ Finset.range c, csm r c * (steerVec r).conj) * steerVec c).re
  let normalizeFactor : ℚ := distGridToArrayCenter * helpNormalize
  scalarProd / (normalizeFactor * normalizeFactor) * signalLossNormalization

/-- Embeds `_freqBeamformer_Formulation4AkaTrueLocation_FullCSM` of
`fastFuncs.py`: phasor divided by `dist[m]`, normalization
`nMics * sum 1/dist[m]^2` (not squared). -/
def freqBeamformer_Formulation4AkaTrueLocation_FullCSM (nMics : ℕ) (cosF sinF f32 : ℚ → ℚ)
    (csm : ℕ → ℕ → Cx) (distGridToArrayCenter : ℚ) (distGridToAllMics : ℕ → ℚ)
    (waveNumber signalLossNormalization : ℚ) : ℚ :=
  let _ := distGridToArrayCenter
  let helpNormalize : ℚ := ∑ m ∈ Finset.range nMics,
    1 / (distGridToAllMics m * distGridToAllMics m)
  let steerVec : ℕ → Cx := fun m =>
    (cisNeg cosF sinF (f32 (waveNumber * distGridToAllMics m))).divQ (distGridToAllMics m)
  let scalarProd : ℚ := ∑ c ∈ Finset.range nMics,
    (2 * ((∑ r ∈ Finset.range c, csm r c * (steerVec r).conj) * steerVec c).re
      + (csm c c * (steerVec c).conj * steerVec c).re)
  let normalizeFactor : ℚ := (nMics : ℚ) * helpNormalize
  scalarProd / normalizeFactor * signalLossNormalization

/-- Embeds `_freqBeamformer_Formulation4AkaTrueLocation_CsmRemovedDiag` of
`fastFuncs.py`. -/
def freqBeamformer_Formulation4AkaTrueLocation_CsmRemovedDiag (nMics : ℕ) (cosF sinF f32 : ℚ → ℚ)
    (csm : ℕ → ℕ → Cx) (distGridToArrayCenter : ℚ) (distGridToAllMics : ℕ → ℚ)
    (waveNumber signalLossNormalization : ℚ) : ℚ :=
  let _ := distGridToArrayCenter
  let helpNormalize : ℚ := ∑ m ∈ Finset.range nMics,
    1 / (distGridToAllMics m * distGridToAllMics m)
  let steerVec : ℕ → Cx := fun m =>
    (cisNeg cosF sinF (f32 (waveNumber * distGridToAllMics m))).divQ (distGridToAllMics m)
  let scalarProd : ℚ := ∑ c ∈ Finset.range nMics,
    2 * ((∑ r ∈ Finset.range c, csm r c * (steerVec r).conj) * steerVec c).re
  let normalizeFactor : ℚ := (nMics : ℚ) * helpNormalize
  scalarProd / normalizeFactor * signalLossNormalization

/-- Embeds `_freqBeamformer_SpecificSteerVec_FullCSM` of `fastFuncs.py`:
caller-supplied steering vector, Hermitian-reduced quadratic form with the
diagonal included, scaled by the signal-loss normalization only. -/
def freqBeamformer_SpecificSteerVec_FullCSM (nMics : ℕ) (csm : ℕ → ℕ → Cx)
    (steerVec : ℕ → Cx) (signalLossNormalization : ℚ) : ℚ :=
  let scalarProd : ℚ := ∑ c ∈ Finset.range nMics,
    (2 * ((∑ r ∈ Finset.range c, csm r c * (steerVec r).conj) * steerVec c).re
      + (csm c c * (steerVec c).conj * steerVec c).re)
  scalarProd * signalLossNormalization

/-- Embeds `_freqBeamformer_SpecificSteerVec_CsmRemovedDiag` of
`fastFuncs.py`: as the full-CSM variant, diagonal term omitted. -/
def freqBeamformer_SpecificSteerVec_CsmRemovedDiag (nMics : ℕ) (csm : ℕ → ℕ → Cx)
    (steerVec : ℕ → Cx) (signalLossNormalization : ℚ) : ℚ :=
  let scalarProd : ℚ := ∑ c ∈ Finset.range nMics,
    2 * ((∑ r ∈ Finset.range c, csm r c * (steerVec r).conj) * steerVec c).re
  scalarProd * signalLossNormalization

/-- Embeds `_freqBeamformer_EigValProb_Formulation1AkaClassic_FullCSM` of
`fastFuncs.py`.  Note: the phase argument in the source (line 426) is
`waveNumber * distGridToAllMics[cntMics]` with no subtraction of
`distGridToArrayCenter`. -/
def freqBeamformer_EigValProb_Formulation1AkaClassic_FullCSM (nMics nEV : ℕ)
    (cosF sinF f32 : ℚ → ℚ) (eigVal : ℕ → ℚ) (eigVec : ℕ → ℕ → Cx)
    (distGridToArrayCenter : ℚ) (distGridToAllMics : ℕ → ℚ)
    (waveNumber signalLossNormalization : ℚ) : ℚ :=
  let _ := distGridToArrayCenter
  let steerVec : ℕ → Cx := fun m => cisNeg cosF sinF (f32 (waveNumber * distGridToAllMics m))
  let scalarProdFullCSM : ℚ := ∑ i ∈ Finset.range nEV,
    (let w := ∑ m ∈ Finset.range nMics, (eigVec m i).conj * steerVec m
     (w * w.conj).re * eigVal i)
  let normalizeFactor : ℚ := (nMics : ℚ)
  scalarProdFullCSM / (normalizeFactor * normalizeFactor) * signalLossNormalization

/-- Embeds `_freqBeamformer_EigValProb_Formulation1AkaClassic_CsmRemovedDiag`
of `fastFuncs.py`.  Here (source line 450) the phase argument is
`waveNumber * (distGridToAllMics[cntMics] - distGridToArrayCenter)`. -/
def freqBeamformer_EigValProb_Formulation1AkaClassic_CsmRemovedDiag (nMics nEV : ℕ)
    (cosF sinF f32 : ℚ → ℚ) (eigVal : ℕ → ℚ) (eigVec : ℕ → ℕ → Cx)
    (distGridToArrayCenter : ℚ) (distGridToAllMics : ℕ → ℚ)
    (waveNumber signalLossNormalization : ℚ) : ℚ :=
  let steerVec : ℕ → Cx := fun m =>
    cisNeg cosF sinF (f32 (waveNumber * (distGridToAllMics m - distGridToArrayCenter)))
  let scalarProdReducedCSM : ℚ := ∑ i ∈ Finset.range nEV,
    (let w := ∑ m ∈ Finset.range nMics, (eigVec m i).conj * steerVec m
     let dsum := ∑ m ∈ Finset.range nMics,
       (((eigVec m i).conj * steerVec m) * ((eigVec m i).conj * steerVec m).conj).re
     ((w * w.conj).re - dsum) * eigVal i)
  let normalizeFactor : ℚ := (nMics : ℚ)
  scalarProdReducedCSM / (normalizeFactor * normalizeFactor) * signalLossNormalization

/-- Embeds `_freqBeamformer_EigValProb_Formulation2AkaInverse_FullCSM` of
`fastFuncs.py`. -/
def freqBeamformer_EigValProb_Formulation2AkaInverse_FullCSM (nMics nEV : ℕ)
    (cosF sinF f32 : ℚ → ℚ) (eigVal : ℕ → ℚ) (eigVec : ℕ → ℕ → Cx)
    (distGridToArrayCenter : ℚ) (distGridToAllMics : ℕ → ℚ)
    (waveNumber signalLossNormalization : ℚ) : ℚ :=
  let steerVec : ℕ → Cx := fun m =>
    (cisNeg cosF sinF (f32 (waveNumber * (distGridToAllMics m - distGridToArrayCenter)))).mulQ
      (distGridToAllMics m)
  let scalarProdFullCSM : ℚ := ∑ i ∈ Finset.range nEV,
    (let w := ∑ m ∈ Finset.range nMics, (eigVec m i).conj * steerVec m
     (w * w.conj).re * eigVal i)
  let normalizeFactor : ℚ := (nMics : ℚ) * distGridToArrayCenter
  scalarProdFullCSM / (normalizeFactor * normalizeFactor) * signalLossNormalization

/-- Embeds `_freqBeamformer_EigValProb_Formulation2AkaInverse_CsmRemovedDiag`
of `fastFuncs.py`. -/
def freqBeamformer_EigValProb_Formulation2AkaInverse_CsmRemovedDiag (nMics nEV : ℕ)
    (cosF sinF f32 : ℚ → ℚ) (eigVal : ℕ → ℚ) (eigVec : ℕ → ℕ → Cx)
    (distGridToArrayCenter : ℚ) (distGridToAllMics : ℕ → ℚ)
    (waveNumber signalLossNormalization : ℚ) : ℚ :=
  let steerVec : ℕ → Cx := fun m =>
    (cisNeg cosF sinF (f32 (waveNumber * (distGridToAllMics m - distGridToArrayCenter)))).mulQ
      (distGridToAllMics m)
  let scalarProdReducedCSM : ℚ := ∑ i ∈ Finset.range nEV,
    (let w := ∑ m ∈ Finset.range nMics, (eigVec m i).conj * steerVec m
     let dsum := ∑ m ∈ Finset.range nMics,
       (((eigVec m i).conj * steerVec m) * ((eigVec m i).conj * steerVec m).conj).re
     ((w * w.conj).re - dsum) * eigVal i)
  let normalizeFactor : ℚ := (nMics : ℚ) * distGridToArrayCenter
  scalarProdReducedCSM / (normalizeFactor * normalizeFactor) * signalLossNormalization

/-- Embeds `_freqBeamformer_EigValProb_Formulation3AkaTrueLevel_FullCSM` of
`fastFuncs.py`. -/
def freqBeamformer_EigValProb_Formulation3AkaTrueLevel_FullCSM (nMics nEV : ℕ)
    (cosF sinF f32 : ℚ → ℚ) (eigVal : ℕ → ℚ) (eigVec : ℕ → ℕ → Cx)
    (distGridToArrayCenter : ℚ) (distGridToAllMics : ℕ → ℚ)
    (waveNumber signalLossNormalization : ℚ) : ℚ :=
  let helpNormalize : ℚ := ∑ m ∈ Finset.range nMics,
    1 / (distGridToAllMics m * distGridToAllMics m)
  let steerVec : ℕ → Cx := fun m =>
    (cisNeg cosF sinF (f32 (waveNumber * (distGridToAllMics m - distGridToArrayCenter)))).divQ
      (distGridToAllMics m)
  let scalarProdFullCSM : ℚ := ∑ i ∈ Finset.range nEV,
    (let w := ∑ m ∈ Finset.range nMics, (eigVec m i).conj * steerVec m
     (w * w.conj).re * eigVal i)
  let normalizeFactor : ℚ := distGridToArrayCenter * helpNormalize
  scalarProdFullCSM / (normalizeFactor * normalizeFactor) * signalLossNormalization

/-- Embeds `_freqBeamformer_EigValProb_Formulation3AkaTrueLevel_CsmRemovedDiag`
of `fastFuncs.py`. -/
def freqBeamformer_EigValProb_Formulation3AkaTrueLevel_CsmRemovedDiag (nMics nEV : ℕ)
    (cosF sinF f32 : ℚ → ℚ) (eigVal : ℕ → ℚ) (eigVec : ℕ → ℕ → Cx)
    (distGridToArrayCenter : ℚ) (distGridToAllMics : ℕ → ℚ)
    (waveNumber signalLossNormalization : ℚ) : ℚ :=
  let helpNormalize : ℚ := ∑ m ∈ Finset.range nMics,
    1 / (distGridToAllMics m * distGridToAllMics m)
  let steerVec : ℕ → Cx := fun m =>
    (cisNeg cosF sinF (f32 (waveNumber * (distGridToAllMics m - distGridToArrayCenter)))).divQ
      (distGridToAllMics m)
  let scalarProdReducedCSM : ℚ := ∑ i ∈ Finset.range nEV,
    (let w := ∑ m ∈ Finset.range nMics, (eigVec m i).conj * steerVec m
     let dsum := ∑ m ∈ Finset.range nMics,
       (((eigVec m i).conj * steerVec m) * ((eigVec m i).conj * steerVec m).conj).re
     ((w * w.conj).re - dsum) * eigVal i)
  let normalizeFactor : ℚ := distGridToArrayCenter * helpNormalize
  scalarProdReducedCSM / (normalizeFactor * normalizeFactor) * signalLossNormalization

/-- Embeds `_freqBeamformer_EigValProb_Formulation4AkaTrueLocation_FullCSM` of
`fastFuncs.py`. -/
def freqBeamformer_EigValProb_Formulation4AkaTrueLocation_FullCSM (nMics nEV : ℕ)
    (cosF sinF f32 : ℚ → ℚ) (eigVal : ℕ → ℚ) (eigVec : ℕ → ℕ → Cx)
    (distGridToArrayCenter : ℚ) (distGridToAllMics : ℕ → ℚ)
    (waveNumber signalLossNormalization : ℚ) : ℚ :=
  let helpNormalize : ℚ := ∑ m ∈ Finset.range nMics,
    1 / (distGridToAllMics m * distGridToAllMics m)
  let steerVec : ℕ → Cx := fun m =>
    (cisNeg cosF sinF (f32 (waveNumber * (distGridToAllMics m - distGridToArrayCenter)))).divQ
      (distGridToAllMics m)
  let scalarProdFullCSM : ℚ := ∑ i ∈ Finset.range nEV,
    (let w := ∑ m ∈ Finset.range nMics, (eigVec m i).conj * steerVec m
     (w * w.conj).re * eigVal i)
  let normalizeFactor : ℚ := (nMics : ℚ) * helpNormalize
  scalarProdFullCSM / normalizeFactor * signalLossNormalization

/-- Embeds
`_freqBeamformer_EigValProb_Formulation4AkaTrueLocation_CsmRemovedDiag` of
`fastFuncs.py`. -/
def freqBeamformer_EigValProb_Formulation4AkaTrueLocation_CsmRemovedDiag (nMics nEV : ℕ)
    (cosF sinF f32 : ℚ → ℚ) (eigVal : ℕ → ℚ) (eigVec : ℕ → ℕ → Cx)
    (distGridToArrayCenter : ℚ) (distGridToAllMics : ℕ → ℚ)
    (waveNumber signalLossNormalization : ℚ) : ℚ :=
  let helpNormalize : ℚ := ∑ m ∈ Finset.range nMics,
    1 / (distGridToAllMics m * distGridToAllMics m)
  let steerVec : ℕ → Cx := fun m =>
    (cisNeg cosF sinF (f32 (waveNumber * (distGridToAllMics m - distGridToArrayCenter)))).divQ
      (distGridToAllMics m)
  let scalarProdReducedCSM : ℚ := ∑ i ∈ Finset.range nEV,
    (let w := ∑ m ∈ Finset.range nMics, (eigVec m i).conj * steerVec m
     let dsum := ∑ m ∈ Finset.range nMics,
       (((eigVec m i).conj * steerVec m) * ((eigVec m i).conj * steerVec m).conj).re
     ((w * w.conj).re - dsum) * eigVal i)
  let normalizeFactor : ℚ := (nMics : ℚ) * helpNormalize
  scalarProdReducedCSM / normalizeFactor * signalLossNormalization

/-- Embeds `_freqBeamformer_EigValProb_SpecificSteerVec_FullCSM` of
`fastFuncs.py`: for each eigenpair project the caller-supplied steering vector
onto the eigenvector, square its magnitude, weight by the eigenvalue, sum. -/
def freqBeamformer_EigValProb_SpecificSteerVec_FullCSM (nMics nEV : ℕ) (eigVal : ℕ → ℚ)
    (eigVec : ℕ → ℕ → Cx) (steerVec : ℕ → Cx) (signalLossNormalization : ℚ) : ℚ :=
  let scalarProdFullCSM : ℚ := ∑ i ∈ Finset.range nEV,
    (let w := ∑ m ∈ Finset.range nMics, (eigVec m i).conj * steerVec m
     (w * w.conj).re * eigVal i)
  scalarProdFullCSM * signalLossNormalization

/-- Embeds `_freqBeamformer_EigValProb_SpecificSteerVec_CsmRemovedDiag` of
`fastFuncs.py`: per eigenpair, subtract the per-mic diagonal contribution
before weighting by the eigenvalue. -/
def freqBeamformer_EigValProb_SpecificSteerVec_CsmRemovedDiag (nMics nEV : ℕ) (eigVal : ℕ → ℚ)
    (eigVec : ℕ → ℕ → Cx) (steerVec : ℕ → Cx) (signalLossNormalization : ℚ) : ℚ :=
  let scalarProdReducedCSM : ℚ := ∑ i ∈ Finset.range nEV,
    (let w := ∑ m ∈ Finset.range nMics, (eigVec m i).conj * steerVec m
     let dsum := ∑ m ∈ Finset.range nMics,
       (((eigVec m i).conj * steerVec m) * ((eigVec m i).conj * steerVec m).conj).re
     ((w * w.conj).re - dsum) * eigVal i)
  scalarProdReducedCSM * signalLossNormalization

/-- Embeds the `beamformerFreq` dispatcher of `fastFuncs.py` restricted to the
predefined steering-vector formulations I-IV (the `steerVecType != 'specific'`
branch): the key `(boolIsEigValProb, steerVecType, boolRemovedDiagOfCSM)`
selects a core kernel (an unknown key raises `KeyError` in the source,
embedded as `none`); the output map is `np.zeros((nFreqs, nGridPoints))`
filled per frequency and grid point by the kernel applied to that frequency's
CSM slice (resp. eigenpair slices) and `wavenumber[cntFreqs].imag`. -/
def beamformerFreq (nFreqs nGridPoints nMics nEV : ℕ) (cosF sinF f32 : ℚ → ℚ)
    (boolIsEigValProb : Bool) (steerVecType : ℕ) (boolRemovedDiagOfCSM : Bool)
    (normFactor : ℚ) (distGridToArrayCenter : ℕ → ℚ) (distGridToAllMics : ℕ → ℕ → ℚ)
    (wavenumber : ℕ → Cx) (csm : ℕ → ℕ → ℕ → Cx) (eigVal : ℕ → ℕ → ℚ)
    (eigVec : ℕ → ℕ → ℕ → Cx) : Option (ℕ → ℕ → ℚ) :=
  match boolIsEigValProb, steerVecType, boolRemovedDiagOfCSM with
  | false, 1, false => some (fun f g => if f < nFreqs ∧ g < nGridPoints then
      freqBeamformer_Formulation1AkaClassic_FullCSM nMics cosF sinF f32 (csm f)
        (distGridToArrayCenter g) (distGridToAllMics g) ((wavenumber f).im) normFactor else 0)
  | false, 1, true => some (fun f g => if f < nFreqs ∧ g < nGridPoints then
      freqBeamformer_Formulation1AkaClassic_CsmRemovedDiag nMics cosF sinF f32 (csm f)
        (distGridToArrayCenter g) (distGridToAllMics g) ((wavenumber f).im) normFactor else 0)
  | false, 2, false => some (fun f g => if f < nFreqs ∧ g < nGridPoints then
      freqBeamformer_Formulation2AkaInverse_FullCSM nMics cosF sinF f32 (csm f)
        (distGridToArrayCenter g) (distGridToAllMics g) ((wavenumber f).im) normFactor else 0)
  | false, 2, true => some (fun f g => if f < nFreqs ∧ g < nGridPoints then
      freqBeamformer_Formulation2AkaInverse_CsmRemovedDiag nMics cosF sinF f32 (csm f)
        (distGridToArrayCenter g) (distGridToAllMics g) ((wavenumber f).im) normFactor else 0)
  | false, 3, false => some (fun f g => if f < nFreqs ∧ g < nGridPoints then
      freqBeamformer_Formulation3AkaTrueLevel_FullCSM nMics cosF sinF f32 (csm f)
        (distGridToArrayCenter g) (distGridToAllMics g) ((wavenumber f).im) normFactor else 0)
  | false, 3, true => some (fun f g => if f < nFreqs ∧ g < nGridPoints then
      freqBeamformer_Formulation3AkaTrueLevel_CsmRemovedDiag nMics cosF sinF f32 (csm f)
        (distGridToArrayCenter g) (distGridToAllMics g) ((wavenumber f).im) normFactor else 0)
  | false, 4, false => some (fun f g => if f < nFreqs ∧ g < nGridPoints then
      freqBeamformer_Formulation4AkaTrueLocation_FullCSM nMics cosF sinF f32 (csm f)
        (distGridToArrayCenter g) (distGridToAllMics g) ((wavenumber f).im) normFactor else 0)
  | false, 4, true => some (fun f g => if f < nFreqs ∧ g < nGridPoints then
      freqBeamformer_Formulation4AkaTrueLocation_CsmRemovedDiag nMics cosF sinF f32 (csm f)
        (distGridToArrayCenter g) (distGridToAllMics g) ((wavenumber f).im) normFactor else 0)
  | true, 1, false => some (fun f g => if f < nFreqs ∧ g < nGridPoints then
      freqBeamformer_EigValProb_Formulation1AkaClassic_FullCSM nMics nEV cosF sinF f32
        (eigVal f) (eigVec f) (distGridToArrayCenter g) (distGridToAllMics g)
        ((wavenumber f).im) normFactor else 0)
  | true, 1, true => some (fun f g => if f < nFreqs ∧ g < nGridPoints then
      freqBeamformer_EigValProb_Formulation1AkaClassic_CsmRemovedDiag nMics nEV cosF sinF f32
        (eigVal f) (eigVec f) (distGridToArrayCenter g) (distGridToAllMics g)
        ((wavenumber f).im) normFactor else 0)
  | true, 2, false => some (fun f g => if f < nFreqs ∧ g < nGridPoints then
      freqBeamformer_EigValProb_Formulation2AkaInverse_FullCSM nMics nEV cosF sinF f32
        (eigVal f) (eigVec f) (distGridToArrayCenter g) (distGridToAllMics g)
        ((wavenumber f).im) normFactor else 0)
  | true, 2, true => some (fun f g => if f < nFreqs ∧ g < nGridPoints then
      freqBeamformer_EigValProb_Formulation2AkaInverse_CsmRemovedDiag nMics nEV cosF sinF f32
        (eigVal f) (eigVec f) (distGridToArrayCenter g) (distGridToAllMics g)
        ((wavenumber f).im) normFactor else 0)
  | true, 3, false => some (fun f g => if f < nFreqs ∧ g < nGridPoints then
      freqBeamformer_EigValProb_Formulation3AkaTrueLevel_FullCSM nMics nEV cosF sinF f32
        (eigVal f) (eigVec f) (distGridToArrayCenter g) (distGridToAllMics g)
        ((wavenumber f).im) normFactor else 0)
  | true, 3, true => some (fun f g => if f < nFreqs ∧ g < nGridPoints then
      freqBeamformer_EigValProb_Formulation3AkaTrueLevel_CsmRemovedDiag nMics nEV cosF sinF f32
        (eigVal f) (eigVec f) (distGridToArrayCenter g) (distGridToAllMics g)
        ((wavenumber f).im) normFactor else 0)
  | true, 4, false => some (fun f g => if f < nFreqs ∧ g < nGridPoints then
      freqBeamformer_EigValProb_Formulation4AkaTrueLocation_FullCSM nMics nEV cosF sinF f32
        (eigVal f) (eigVec f) (distGridToArrayCenter g) (distGridToAllMics g)
        ((wavenumber f).im) normFactor else 0)
  | true, 4, true => some (fun f g => if f < nFreqs ∧ g < nGridPoints then
      freqBeamformer_EigValProb_Formulation4AkaTrueLocation_CsmRemovedDiag nMics nEV cosF sinF f32
        (eigVal f) (eigVec f) (distGridToArrayCenter g) (distGridToAllMics g)
        ((wavenumber f).im) normFactor else 0)
  | _, _, _ => none

/-- In-place `+=` on one entry of a 3-dimensional array, used to embed the
mutating loops of `calcCSM`. -/
def add3 (A : ℕ → ℕ → ℕ → Cx) (i j k : ℕ) (v : Cx) : ℕ → ℕ → ℕ → Cx :=
  fun i' j' k' => if i' = i ∧ j' = j ∧ k' = k then A i' j' k' + v else A i' j' k'

/-- In-place `=` on one entry of a 3-dimensional array, used to embed the
mutating loops of `transfer`. -/
def set3 (A : ℕ → ℕ → ℕ → Cx) (i j k : ℕ) (v : Cx) : ℕ → ℕ → ℕ → Cx :=
  fun i' j' k' => if i' = i ∧ j' = j ∧ k' = k then v else A i' j' k'

/-- Inner loop of `calcCSM` (`for cntRow in range(cntColumn + 1)`): adds
`SpecAllMics[f, c].conjugate() * SpecAllMics[f, r]` to `csm[f, r, c]` for the
rows `r` below the given bound. -/
def calcCSM_rowLoop (SpecAllMics : ℕ → ℕ → Cx) (cntFreq cntColumn : ℕ) :
    ℕ → (ℕ → ℕ → ℕ → Cx) → (ℕ → ℕ → ℕ → Cx)
  | 0, csm => csm
  | r + 1, csm =>
      add3 (calcCSM_rowLoop SpecAllMics cntFreq cntColumn r csm) cntFreq r cntColumn
        ((SpecAllMics cntFreq cntColumn).conj * SpecAllMics cntFreq r)

/-- Middle loop of `calcCSM` (`for cntColumn in range(nMics)`): for each
column `c` runs the row loop up to `c + 1`. -/
def calcCSM_colLoop (SpecAllMics : ℕ → ℕ → Cx) (cntFreq : ℕ) :
    ℕ → (ℕ → ℕ → ℕ → Cx) → (ℕ → ℕ → ℕ → Cx)
  | 0, csm => csm
  | c + 1, csm =>
      calcCSM_rowLoop SpecAllMics cntFreq c (c + 1) (calcCSM_colLoop SpecAllMics cntFreq c csm)

/-- Outer loop of `calcCSM` (`for cntFreq in range(nFreqs)`). -/
def calcCSM_freqLoop (SpecAllMics : ℕ → ℕ → Cx) (nMics : ℕ) :
    ℕ → (ℕ → ℕ → ℕ → Cx) → (ℕ → ℕ → ℕ → Cx)
  | 0, csm => csm
  | f + 1, csm => calcCSM_colLoop SpecAllMics f nMics (calcCSM_freqLoop SpecAllMics nMics f csm)

/-- Embeds `calcCSM` of `fastFuncs.py` (formerly `faverage`): folds one
ensemble's per-mic spectrum into the running CSM, upper triangle only, by
three nested loops mutating the array in place. -/
def calcCSM (nFreqs nMics : ℕ) (csm : ℕ → ℕ → ℕ → Cx) (SpecAllMics : ℕ → ℕ → Cx) :
    ℕ → ℕ → ℕ → Cx :=
  calcCSM_freqLoop SpecAllMics nMics nFreqs csm

/-- Mic loop of `_transferCoreFunc` of `fastFuncs.py`: writes
`(cos - 1j sin)(f32(k * (dist[m] - distCenter))) * distCenter / dist[m]`
into `result[f, g, m]`. -/
def transferMicLoop (cosF sinF f32 : ℚ → ℚ) (distGridToArrayCenter : ℚ)
    (distGridToAllMics : ℕ → ℚ) (waveNumber : ℚ) (cntFreq cntGrid : ℕ) :
    ℕ → (ℕ → ℕ → ℕ → Cx) → (ℕ → ℕ → ℕ → Cx)
  | 0, A => A
  | m + 1, A =>
      set3 (transferMicLoop cosF sinF f32 distGridToArrayCenter distGridToAllMics
          waveNumber cntFreq cntGrid m A) cntFreq cntGrid m
        (Cx.divQ
          (Cx.mulQ
            (cisNeg cosF sinF (f32 (waveNumber * (distGridToAllMics m - distGridToArrayCenter))))
            distGridToArrayCenter)
          (distGridToAllMics m))

/-- Grid-point loop of `transfer` (the `guvectorize` mapping of
`_transferCoreFunc` over grid points): per grid point `g` the core runs with
`distGridToArrayCenter[g]` and `distGridToAllMics[g, :]`. -/
def transferGridLoop (cosF sinF f32 : ℚ → ℚ) (distGridToArrayCenter : ℕ → ℚ)
    (distGridToAllMics : ℕ → ℕ → ℚ) (waveNumber : ℚ) (nMics cntFreq : ℕ) :
    ℕ → (ℕ → ℕ → ℕ → Cx) → (ℕ → ℕ → ℕ → Cx)
  | 0, A => A
  | g + 1, A =>
      transferMicLoop cosF sinF f32 (distGridToArrayCenter g) (distGridToAllMics g)
        waveNumber cntFreq g nMics
        (transferGridLoop cosF sinF f32 distGridToArrayCenter distGridToAllMics
          waveNumber nMics cntFreq g A)

/-- Frequency loop of `transfer`: each frequency slice is computed with
`wavenumber[cntFreqs].imag`. -/
def transferFreqLoop (cosF sinF f32 : ℚ → ℚ) (distGridToArrayCenter : ℕ → ℚ)
    (distGridToAllMics : ℕ → ℕ → ℚ) (wavenumber : ℕ → Cx) (nGridPoints nMics : ℕ) :
    ℕ → (ℕ → ℕ → ℕ → Cx) → (ℕ → ℕ → ℕ → Cx)
  | 0, A => A
  | f + 1, A =>
      transferGridLoop cosF sinF f32 distGridToArrayCenter distGridToAllMics
        ((wavenumber f).im) nMics f nGridPoints
        (transferFreqLoop cosF sinF f32 distGridToArrayCenter distGridToAllMics
          wavenumber nGridPoints nMics f A)

/-- Embeds `transfer` of `fastFuncs.py`: allocates a zero-filled
`complex128[nFreqs, nGridPoints, nMics]` array and fills it per frequency via
`_transferCoreFunc`. -/
def transfer (nFreqs nGridPoints nMics : ℕ) (cosF sinF f32 : ℚ → ℚ)
    (distGridToArrayCenter : ℕ → ℚ) (distGridToAllMics : ℕ → ℕ → ℚ)
    (wavenumber : ℕ → Cx) : ℕ → ℕ → ℕ → Cx :=
  transferFreqLoop cosF sinF f32 distGridToArrayCenter distGridToAllMics wavenumber
    nGridPoints nMics nFreqs (fun _ _ _ => 0)

/-- 3-vectors of rationals, embedding the position/velocity vectors consumed
from the trajectory provider in `sources.py`. -/
structure Vec3 where
  x : ℚ
  y : ℚ
  z : ℚ
deriving DecidableEq, Repr

namespace Vec3

def sub (a b : Vec3) : Vec3 := ⟨a.x - b.x, a.y - b.y, a.z - b.z⟩

def dot (a b : Vec3) : ℚ := a.x * b.x + a.y * b.y + a.z * b.z

/-- Componentwise division by a scalar (`loc /= sqrt((loc*loc).sum(0))`). -/
def divQ (a : Vec3) (q : ℚ) : Vec3 := ⟨a.x / q, a.y / q, a.z / q⟩

end Vec3

/-- `sqrt((rm*rm).sum(0))` of `MovingPointSource.result`: the per-mic
distance from the trajectory position at `te[m]` to microphone `m`; `sqrtF`
stands for the external `numpy.sqrt`. -/
def trajRm (sqrtF : ℚ → ℚ) (trLoc : ℚ → Vec3) (mpos : ℕ → Vec3) (te : ℕ → ℚ) (m : ℕ) : ℚ :=
  sqrtF (Vec3.dot (Vec3.sub (trLoc (te m)) (mpos m)) (Vec3.sub (trLoc (te m)) (mpos m)))

/-- `Mr = (der*loc).sum(0)/c0` of `MovingPointSource.result`: the source
velocity projected on the unit vector of the source position itself (the
source normalizes `loc` by its own norm), divided by the sound speed. -/
def trajMr (sqrtF : ℚ → ℚ) (trLoc trDer : ℚ → Vec3) (c0 : ℚ) (te : ℕ → ℚ) (m : ℕ) : ℚ :=
  Vec3.dot (trDer (te m))
    (Vec3.divQ (trLoc (te m)) (sqrtF (Vec3.dot (trLoc (te m)) (trLoc (te m))))) / c0

/-- `eps = (te + rm/c0 - t)/(1+Mr)` of `MovingPointSource.result`. -/
def newtonEps (sqrtF : ℚ → ℚ) (trLoc trDer : ℚ → Vec3) (mpos : ℕ → Vec3) (c0 : ℚ)
    (t te : ℕ → ℚ) (m : ℕ) : ℚ :=
  (te m + trajRm sqrtF trLoc mpos te m / c0 - t m) / (1 + trajMr sqrtF trLoc trDer c0 te m)

/-- `abs(eps).max()` over the `M` microphones (numpy max of the per-mic
absolute discrepancies; `M >= 1` in any real configuration). -/
def maxAbs (M : ℕ) (f : ℕ → ℚ) : ℚ := (List.range M).foldl (fun acc m => max acc |f m|) 0

/-- The Newton-Raphson `while abs(eps).max() > epslim and j < 100` loop of
`MovingPointSource.result`, with the remaining iteration budget as fuel.
State: current emission times `te`, last discrepancies `eps`, last distances
`rm`.  Returns the final `te` together with the `rm` of the last executed
iteration (which the source then uses for the amplitude; if the loop body
never runs, Python would hit an unassigned `rm` — the `rm` argument of the
initial call is reachable only in that degenerate case). -/
def nrLoop (M : ℕ) (sqrtF : ℚ → ℚ) (trLoc trDer : ℚ → Vec3) (mpos : ℕ → Vec3)
    (c0 epslim : ℚ) (t : ℕ → ℚ) :
    ℕ → (ℕ → ℚ) → (ℕ → ℚ) → (ℕ → ℚ) → ((ℕ → ℚ) × (ℕ → ℚ))
  | 0, te, _, rm => (te, rm)
  | j + 1, te, eps, rm =>
      if maxAbs M eps > epslim then
        let rm' := fun m => trajRm sqrtF trLoc mpos te m
        let eps' := fun m => newtonEps sqrtF trLoc trDer mpos c0 t te m
        nrLoop M sqrtF trLoc trDer mpos c0 epslim t j (fun m => te m - eps' m) eps' rm'
      else (te, rm)

/-- One per-sample retarded-time solve of `MovingPointSource.result`:
`eps = ones(num_mics)`, `te = t.copy()`, `j = 0`, then the capped
Newton-Raphson loop (at most 100 iterations). -/
def newtonSolve (M : ℕ) (sqrtF : ℚ → ℚ) (trLoc trDer : ℚ → Vec3) (mpos : ℕ → Vec3)
    (c0 epslim : ℚ) (t : ℕ → ℚ) : (ℕ → ℚ) × (ℕ → ℚ) :=
  nrLoop M sqrtF trLoc trDer mpos c0 epslim t 100 t (fun _ => 1) (fun _ => 0)

/-- `array(0.5 + v, dtype=long)`: numpy's float-to-integer cast truncates
toward zero. -/
def truncToZero (q : ℚ) : ℤ := if 0 ≤ q then ⌊q⌋ else -⌊-q⌋

/-- numpy integer indexing raises `IndexError` exactly when the index is
outside `[-len, len)`. -/
def pyIndexOK (len : ℕ) (i : ℤ) : Bool := decide (-(len : ℤ) ≤ i) && decide (i < (len : ℤ))

/-- numpy integer indexing value: nonnegative indices count from the front,
negative in-range indices wrap around from the back. -/
def pyGet (sig : List ℚ) (i : ℤ) : ℚ :=
  if 0 ≤ i then sig.getD i.toNat 0 else sig.getD ((sig.length : ℤ) + i).toNat 0

/-- `signal[array(..., dtype=long)]` for the per-mic index array: fails (the
caught `IndexError`) when any of the `M` indices is out of `[-len, len)`,
otherwise returns the per-mic looked-up samples. -/
def lookupAll (M : ℕ) (sig : List ℚ) (idx : ℕ → ℤ) : Option (ℕ → ℚ) :=
  if (List.range M).all (fun m => pyIndexOK sig.length (idx m)) then
    some (fun m => pyGet sig (idx m))
  else none

namespace PointSource

/-- `ind = (-rm/c - start_t + start) * sample_freq` of `PointSource.result`:
emission time (in samples) for the first output sample. -/
def ind0 (rm : ℕ → ℚ) (c start_t start sample_freq : ℚ) : ℕ → ℚ :=
  fun m => (-(rm m) / c - start_t + start) * sample_freq

/-- The `while n:` loop of `PointSource.result`: per sample, look up the
upsampled signal at `array(0.5 + ind*up, dtype=long)`, divide by `rm`, append
to the output; on `IndexError`, break (partial output remains); then
`ind += 1`. -/
def loop (M : ℕ) (signal : List ℚ) (up : ℕ) (rm : ℕ → ℚ) :
    ℕ → (ℕ → ℚ) → List (ℕ → ℚ)
  | 0, _ => []
  | n + 1, ind =>
      match lookupAll M signal (fun m => truncToZero (1 / 2 + ind m * up)) with
      | some v => (fun m => v m / rm m) :: loop M signal up rm n (fun m => ind m + 1)
      | none => []

/-- Embeds `PointSource.result` of `sources.py` as the flat sequence of
per-mic output samples (the generator's block chunking of size `num` carries
no per-sample information).  `rm` is the per-mic distance array produced by
the external environment collaborator `self.env.r`. -/
def result (M : ℕ) (signal : List ℚ) (up : ℕ) (rm : ℕ → ℚ)
    (c start_t start sample_freq : ℚ) (numsamples : ℕ) : List (ℕ → ℚ) :=
  loop M signal up rm numsamples (ind0 rm c start_t start sample_freq)

end PointSource

namespace MovingPointSource

/-- `epslim = 0.1/self.up/self.sample_freq` of `MovingPointSource.result`. -/
def epslim (up : ℕ) (sample_freq : ℚ) : ℚ := 1 / 10 / (up : ℚ) / sample_freq

/-- `t += 1./self.sample_freq`: the per-sample advance of the receiving
time. -/
def tStep (sample_freq : ℚ) (t : ℕ → ℚ) : ℕ → ℚ := fun m => t m + 1 / sample_freq

/-- The `while n:` loop of `MovingPointSource.result`: per sample, solve the
retarded-time equation, advance the receiving time, compute the fractional
sample index `ind = (te - start_t + start) * sample_freq`, look up the
upsampled signal and divide by the solver's last distances `rm`; on
`IndexError`, break. -/
def loop (M : ℕ) (signal : List ℚ) (up : ℕ) (sqrtF : ℚ → ℚ) (trLoc trDer : ℚ → Vec3)
    (mpos : ℕ → Vec3) (c0 start_t start sample_freq : ℚ) :
    ℕ → (ℕ → ℚ) → List (ℕ → ℚ)
  | 0, _ => []
  | n + 1, t =>
      let ter := newtonSolve M sqrtF trLoc trDer mpos c0 (epslim up sample_freq) t
      let ind := fun m => (ter.1 m - start_t + start) * sample_freq
      match lookupAll M signal (fun m => truncToZero (1 / 2 + ind m * up)) with
      | some v =>
          (fun m => v m / ter.2 m) ::
            loop M signal up sqrtF trLoc trDer mpos c0 start_t start sample_freq n
              (tStep sample_freq t)
      | none => []

/-- Embeds `MovingPointSource.result` of `sources.py` as the flat sequence of
per-mic output samples; the receiving time starts at `start * ones(M)`. -/
def result (M : ℕ) (signal : List ℚ) (up : ℕ) (sqrtF : ℚ → ℚ) (trLoc trDer : ℚ → Vec3)
    (mpos : ℕ → Vec3) (c0 start_t start sample_freq : ℚ) (numsamples : ℕ) : List (ℕ → ℚ) :=
  loop M signal up sqrtF trLoc trDer mpos c0 start_t start sample_freq numsamples
    (fun _ => start)

end MovingPointSource

/-- Spec-side: the Hermitian completion of the upper triangle of a CSM slice
(upper triangle kept, strict lower triangle the conjugate transpose). -/
def hermitianFull (csm : ℕ → ℕ → Cx) : ℕ → ℕ → Cx :=
  fun r c => if r ≤ c then csm r c else (csm c r).conj

/-- Spec-side: the full quadratic form `steer^H . A . steer` over an
`n × n` matrix. -/
def quadForm (n : ℕ) (A : ℕ → ℕ → Cx) (s : ℕ → Cx) : Cx :=
  ∑ c ∈ Finset.range n, ∑ r ∈ Finset.range n, (s r).conj * A r c * s c

/-- A square double sum splits into strict upper triangle, strict lower
triangle and diagonal. -/
theorem sum_square_split (n : ℕ) (g : ℕ → ℕ → Cx) :
    ∑ c ∈ Finset.range n, ∑ r ∈ Finset.range n, g r c
      = (∑ c ∈ Finset.range n, ∑ r ∈ Finset.range c, g r c)
        + (∑ c ∈ Finset.range n, ∑ r ∈ Finset.range c, g c r)
        + ∑ c ∈ Finset.range n, g c c := by
  induction n with
  | zero => simp
  | succ k ih =>
      rw [Finset.sum_range_succ, Finset.sum_range_succ (fun c => ∑ r ∈ Finset.range c, g r c),
        Finset.sum_range_succ (fun c => ∑ r ∈ Finset.range c, g c r),
        Finset.sum_range_succ (fun c => g c c)]
      have hinner : ∀ c, ∑ r ∈ Finset.range (k + 1), g r c
          = (∑ r ∈ Finset.range k, g r c) + g k c := fun c => Finset.sum_range_succ _ k
      rw [Finset.sum_congr rfl (fun c _ => hinner c), Finset.sum_add_distrib,
        Finset.sum_range_succ (fun r => g r k), ih]
      abel

/-- The Hermitian-reduced accumulation loop of the direct full-CSM kernels
(`2 * Re(leftVecMatrixProd * steer[c])` over the strict upper triangle plus
the diagonal term) equals the real part of the full quadratic form, for any
matrix whose strict lower triangle is the conjugate transpose of its strict
upper triangle. -/
theorem scalarProdFull_eq_re_quadForm (n : ℕ) (A : ℕ → ℕ → Cx) (s : ℕ → Cx)
    (hherm : ∀ r c, r < c → c < n → A c r = (A r c).conj) :
    (∑ c ∈ Finset.range n,
      (2 * ((∑ r ∈ Finset.range c, A r c * (s r).conj) * s c).re
        + (A c c * (s c).conj * s c).re))
      = (quadForm n A s).re := by
  unfold quadForm
  rw [sum_square_split n (fun r c => (s r).conj * A r c * s c)]
  rw [Cx.add_re, Cx.add_re, Cx.re_sum, Cx.re_sum, Cx.re_sum]
  rw [← Finset.sum_add_distrib, ← Finset.sum_add_distrib]
  apply Finset.sum_congr rfl
  intro c hc
  have hcn : c < n := Finset.mem_range.mp hc
  have h2 : (∑ r ∈ Finset.range c, A r c * (s r).conj) * s c
      = ∑ r ∈ Finset.range c, (s r).conj * A r c * s c := by
    rw [Finset.sum_mul]
    exact Finset.sum_congr rfl (fun r _ => by ring)
  rw [h2, Cx.re_sum, Cx.re_sum]
  have h3 : ∀ r ∈ Finset.range c, ((s c).conj * A c r * s r).re
      = ((s r).conj * A r c * s c).re := by
    intro r hr
    rw [hherm r c (Finset.mem_range.mp hr) hcn]
    have hconj : (s c).conj * (A r c).conj * s r = ((s r).conj * A r c * s c).conj :=
      Cx.ext (by simp; ring) (by simp; ring)
    rw [hconj, Cx.conj_re]
  rw [Finset.sum_congr rfl h3]
  have h4 : A c c * (s c).conj * s c = (s c).conj * A c c * s c := by ring
  rw [h4]
  ring

/-- The quadratic form of a spectrally reconstructed matrix
`sum_i eigVal[i] * eigVec[:,i] * eigVec[:,i]^H` equals the eigenvalue-weighted
sum of squared projections of the steering vector on the eigenvectors. -/
theorem quadForm_reconstruction (n nEV : ℕ) (eigVal : ℕ → ℚ) (eigVec : ℕ → ℕ → Cx)
    (s : ℕ → Cx) :
    quadForm n
      (fun r c => ∑ i ∈ Finset.range nEV, Cx.ofRat (eigVal i) * eigVec r i * (eigVec c i).conj)
      s
      = ∑ i ∈ Finset.range nEV,
          Cx.ofRat (eigVal i)
            * ((∑ m ∈ Finset.range n, (eigVec m i).conj * s m).conj
              * ∑ m ∈ Finset.range n, (eigVec m i).conj * s m) := by
  unfold quadForm
  have h1 : ∀ c ∈ Finset.range n, ∀ r ∈ Finset.range n,
      (s r).conj
          * (∑ i ∈ Finset.range nEV, Cx.ofRat (eigVal i) * eigVec r i * (eigVec c i).conj)
          * s c
        = ∑ i ∈ Finset.range nEV,
            (Cx.ofRat (eigVal i) * (eigVec r i * (s r).conj)) * ((eigVec c i).conj * s c) := by
    intro c _ r _
    rw [Finset.mul_sum, Finset.sum_mul]
    exact Finset.sum_congr rfl (fun i _ => by ring)
  rw [Finset.sum_congr rfl (fun c hc => Finset.sum_congr rfl (fun r hr => h1 c hc r hr))]
  rw [Finset.sum_congr rfl (fun c _ => Finset.sum_comm)]
  rw [Finset.sum_comm]
  apply Finset.sum_congr rfl
  intro i _
  have h2 : ∀ c ∈ Finset.range n,
      (∑ r ∈ Finset.range n,
          (Cx.ofRat (eigVal i) * (eigVec r i * (s r).conj)) * ((eigVec c i).conj * s c))
        = (∑ r ∈ Finset.range n, Cx.ofRat (eigVal i) * (eigVec r i * (s r).conj))
            * ((eigVec c i).conj * s c) :=
    fun c _ => (Finset.sum_mul _ _ _).symm
  rw [Finset.sum_congr rfl h2, ← Finset.mul_sum, ← Finset.mul_sum]
  have h3 : (∑ m ∈ Finset.range n, (eigVec m i).conj * s m).conj
      = ∑ m ∈ Finset.range n, eigVec m i * (s m).conj := by
    rw [Cx.conj_sum]
    exact Finset.sum_congr rfl (fun m _ => by rw [Cx.conj_mul, Cx.conj_conj])
  rw [h3, mul_assoc]

/-- C1: for every `nMics >= 1`, every upper-triangle CSM with real diagonal,
every `normFactor` and every geometry/wavenumber input, the Formulation-I
direct full-CSM kernel returns `steer^H . C . steer / nMics^2 * normFactor`
where `C` is the Hermitian completion of the upper triangle and
`steer[m] = exp(-j f32(k dist[m]))` (represented as `cos - j sin` of the
rounded argument); the quadratic form is real; and the kernel never reads any
strict-lower-triangle entry (matrices agreeing on `r <= c` give identical
results). -/
theorem claim_C1_direct_full_quadform (nMics : ℕ) (cosF sinF f32 : ℚ → ℚ)
    (csm csm' : ℕ → ℕ → Cx) (distGridToArrayCenter : ℚ) (distGridToAllMics : ℕ → ℚ)
    (waveNumber normFactor : ℚ)
    (hn : 1 ≤ nMics)
    (hdiag : ∀ m, m < nMics → (csm m m).im = 0)
    (hupper : ∀ r c, r ≤ c → csm' r c = csm r c) :
    freqBeamformer_Formulation1AkaClassic_FullCSM nMics cosF sinF f32 csm
        distGridToArrayCenter distGridToAllMics waveNumber normFactor
      = (quadForm nMics (hermitianFull csm)
            (fun m => cisNeg cosF sinF (f32 (waveNumber * distGridToAllMics m)))).re
          / ((nMics : ℚ) * nMics) * normFactor
    ∧ (quadForm nMics (hermitianFull csm)
          (fun m => cisNeg cosF sinF (f32 (waveNumber * distGridToAllMics m)))).im = 0
    ∧ freqBeamformer_Formulation1AkaClassic_FullCSM nMics cosF sinF f32 csm'
        distGridToArrayCenter distGridToAllMics waveNumber normFactor
      = freqBeamformer_Formulation1AkaClassic_FullCSM nMics cosF sinF f32 csm
          distGridToArrayCenter distGridToAllMics waveNumber normFactor := by
  have _ := hn
  set s : ℕ → Cx := fun m => cisNeg cosF sinF (f32 (waveNumber * distGridToAllMics m)) with hs
  have hAgree :
      (∑ c ∈ Finset.range nMics,
        (2 * ((∑ r ∈ Finset.range c, csm r c * (s r).conj) * s c).re
          + (csm c c * (s c).conj * s c).re))
      = (∑ c ∈ Finset.range nMics,
        (2 * ((∑ r ∈ Finset.range c, hermitianFull csm r c * (s r).conj) * s c).re
          + (hermitianFull csm c c * (s c).conj * s c).re)) := by
    apply Finset.sum_congr rfl
    intro c _
    have hd : hermitianFull csm c c = csm c c := if_pos (le_refl c)
    have hu : ∀ r ∈ Finset.range c,
        hermitianFull csm r c * (s r).conj = csm r c * (s r).conj := by
      intro r hr
      unfold hermitianFull
      rw [if_pos (le_of_lt (Finset.mem_range.mp hr))]
    rw [hd, Finset.sum_congr rfl hu]
  have hherm : ∀ r c, r < c → c < nMics →
      hermitianFull csm c r = (hermitianFull csm r c).conj := by
    intro r c hrc _
    unfold hermitianFull
    rw [if_neg (by omega), if_pos (le_of_lt hrc)]
  have hquad := scalarProdFull_eq_re_quadForm nMics (hermitianFull csm) s hherm
  refine ⟨?_, ?_, ?_⟩
  · simp only [freqBeamformer_Formulation1AkaClassic_FullCSM]
    rw [hAgree, hquad]
  · unfold quadForm
    rw [sum_square_split nMics (fun r c => (s r).conj * hermitianFull csm r c * s c)]
    rw [Cx.add_im, Cx.add_im, Cx.im_sum, Cx.im_sum, Cx.im_sum]
    have e1 : ∀ c ∈ Finset.range nMics,
        (∑ r ∈ Finset.range c, (s r).conj * hermitianFull csm r c * s c).im
          = ∑ r ∈ Finset.range c, ((s r).conj * hermitianFull csm r c * s c).im :=
      fun c _ => Cx.im_sum _ _
    have e2 : ∀ c ∈ Finset.range nMics,
        (∑ r ∈ Finset.range c, (s c).conj * hermitianFull csm c r * s r).im
          = ∑ r ∈ Finset.range c, (((s r).conj * hermitianFull csm r c * s c).conj).im := by
      intro c hc
      rw [Cx.im_sum]
      apply Finset.sum_congr rfl
      intro r hr
      rw [hherm r c (Finset.mem_range.mp hr) (Finset.mem_range.mp hc)]
      have : (s c).conj * (hermitianFull csm r c).conj * s r
          = ((s r).conj * hermitianFull csm r c * s c).conj :=
        Cx.ext (by simp; ring) (by simp; ring)
      rw [this]
    rw [Finset.sum_congr rfl e1, Finset.sum_congr rfl e2]
    have e3 : ∀ c ∈ Finset.range nMics,
        ((s c).conj * hermitianFull csm c c * s c).im = 0 := by
      intro c hc
      have hd : hermitianFull csm c c = csm c c := if_pos (le_refl c)
      rw [hd]
      have hzero := hdiag c (Finset.mem_range.mp hc)
      simp only [Cx.mul_im, Cx.mul_re, Cx.conj_re, Cx.conj_im, hzero]
      ring
    rw [Finset.sum_congr rfl e3, ← Finset.sum_add_distrib]
    have e4 : ∀ c ∈ Finset.range nMics,
        ((∑ r ∈ Finset.range c, ((s r).conj * hermitianFull csm r c * s c).im)
          + ∑ r ∈ Finset.range c, (((s r).conj * hermitianFull csm r c * s c).conj).im) = 0 := by
      intro c _
      rw [← Finset.sum_add_distrib]
      apply Finset.sum_eq_zero
      intro r _
      rw [Cx.conj_im]
      ring
    rw [Finset.sum_congr rfl e4]
    simp
  · simp only [freqBeamformer_Formulation1AkaClassic_FullCSM]
    have hp : (∑ c ∈ Finset.range nMics,
        (2 * ((∑ r ∈ Finset.range c, csm' r c * (s r).conj) * s c).re
          + (csm' c c * (s c).conj * s c).re))
        = (∑ c ∈ Finset.range nMics,
        (2 * ((∑ r ∈ Finset.range c, csm r c * (s r).conj) * s c).re
          + (csm c c * (s c).conj * s c).re)) := by
      apply Finset.sum_congr rfl
      intro c _
      rw [hupper c c (le_refl c)]
      have hi : ∀ r ∈ Finset.range c, csm' r c * (s r).conj = csm r c * (s r).conj := by
        intro r hr
        rw [hupper r c (le_of_lt (Finset.mem_range.mp hr))]
      rw [Finset.sum_congr rfl hi]
    rw [hp]

/-- Witness for C1 at a concrete 2-mic input. -/
theorem claim_C1_witness :
    (1 ≤ 2
      ∧ (∀ m, m < 2 → (((fun r c : ℕ => (⟨(r : ℚ) + c, if r = c then 0 else 1⟩ : Cx)) m m).im = 0))
      ∧ (∀ r c : ℕ, r ≤ c →
          (fun r c : ℕ => (⟨(r : ℚ) + c, if r = c then 0 else 1⟩ : Cx)) r c
            = (fun r c : ℕ => (⟨(r : ℚ) + c, if r = c then 0 else 1⟩ : Cx)) r c))
    ∧ (freqBeamformer_Formulation1AkaClassic_FullCSM 2 id id id
          (fun r c : ℕ => (⟨(r : ℚ) + c, if r = c then 0 else 1⟩ : Cx)) 1 (fun _ => 1) 1 1
        = (quadForm 2 (hermitianFull (fun r c : ℕ => (⟨(r : ℚ) + c, if r = c then 0 else 1⟩ : Cx)))
              (fun m => cisNeg id id (id ((1 : ℚ) * (fun _ => (1 : ℚ)) m)))).re
            / ((2 : ℚ) * 2) * 1
      ∧ (quadForm 2 (hermitianFull (fun r c : ℕ => (⟨(r : ℚ) + c, if r = c then 0 else 1⟩ : Cx)))
            (fun m => cisNeg id id (id ((1 : ℚ) * (fun _ => (1 : ℚ)) m)))).im = 0
      ∧ freqBeamformer_Formulation1AkaClassic_FullCSM 2 id id id
            (fun r c : ℕ => (⟨(r : ℚ) + c, if r = c then 0 else 1⟩ : Cx)) 1 (fun _ => 1) 1 1
          = freqBeamformer_Formulation1AkaClassic_FullCSM 2 id id id
              (fun r c : ℕ => (⟨(r : ℚ) + c, if r = c then 0 else 1⟩ : Cx)) 1 (fun _ => 1) 1 1) :=
  ⟨⟨by decide, by decide, fun _ _ _ => rfl⟩,
    claim_C1_direct_full_quadform 2 id id id
      (fun r c : ℕ => (⟨(r : ℚ) + c, if r = c then 0 else 1⟩ : Cx))
      (fun r c : ℕ => (⟨(r : ℚ) + c, if r = c then 0 else 1⟩ : Cx)) 1 (fun _ => 1) 1 1
      (by decide) (by decide) (fun _ _ _ => rfl)⟩

/-- C2: if the CSM equals the full spectral reconstruction
`sum_i eigVal[i] * eigVec[:,i] * eigVec[:,i]^H` (all eigenpairs retained),
then in exact arithmetic the eigenvalue-decomposition kernel equals the
direct-CSM kernel for the same caller-supplied steering vector and the same
diagonal-removal setting, and the eigenvalue-weighted sum of squared
projections equals the Hermitian quadratic form `steer^H . C . steer`. -/
theorem claim_C2_eigen_direct_equivalence (nMics nEV : ℕ) (eigVal : ℕ → ℚ)
    (eigVec : ℕ → ℕ → Cx) (csm : ℕ → ℕ → Cx) (steerVec : ℕ → Cx) (normFactor : ℚ)
    (hrecon : ∀ r c, r < nMics → c < nMics →
      csm r c = ∑ i ∈ Finset.range nEV, Cx.ofRat (eigVal i) * eigVec r i * (eigVec c i).conj) :
    freqBeamformer_EigValProb_SpecificSteerVec_FullCSM nMics nEV eigVal eigVec steerVec
        normFactor
      = freqBeamformer_SpecificSteerVec_FullCSM nMics csm steerVec normFactor
    ∧ freqBeamformer_EigValProb_SpecificSteerVec_CsmRemovedDiag nMics nEV eigVal eigVec
        steerVec normFactor
      = freqBeamformer_SpecificSteerVec_CsmRemovedDiag nMics csm steerVec normFactor
    ∧ (∑ i ∈ Finset.range nEV,
        ((∑ m ∈ Finset.range nMics, (eigVec m i).conj * steerVec m)
          * (∑ m ∈ Finset.range nMics, (eigVec m i).conj * steerVec m).conj).re * eigVal i)
      = (quadForm nMics csm steerVec).re := by
  classical
  set recon : ℕ → ℕ → Cx :=
    fun r c => ∑ i ∈ Finset.range nEV, Cx.ofRat (eigVal i) * eigVec r i * (eigVec c i).conj
    with hreconDef
  have hherm : ∀ r c, recon c r = (recon r c).conj := by
    intro r c
    rw [hreconDef]
    simp only
    rw [Cx.conj_sum]
    apply Finset.sum_congr rfl
    intro i _
    rw [Cx.conj_mul, Cx.conj_mul, Cx.conj_conj]
    have hof : (Cx.ofRat (eigVal i)).conj = Cx.ofRat (eigVal i) := Cx.ext rfl (by simp)
    rw [hof]
    ring
  have hquadcongr : quadForm nMics csm steerVec = quadForm nMics recon steerVec := by
    unfold quadForm
    apply Finset.sum_congr rfl
    intro c hc
    apply Finset.sum_congr rfl
    intro r hr
    rw [hrecon r c (Finset.mem_range.mp hr) (Finset.mem_range.mp hc)]
  have hupcongr :
      (∑ c ∈ Finset.range nMics,
        (2 * ((∑ r ∈ Finset.range c, csm r c * (steerVec r).conj) * steerVec c).re
          + (csm c c * (steerVec c).conj * steerVec c).re))
      = (∑ c ∈ Finset.range nMics,
        (2 * ((∑ r ∈ Finset.range c, recon r c * (steerVec r).conj) * steerVec c).re
          + (recon c c * (steerVec c).conj * steerVec c).re)) := by
    apply Finset.sum_congr rfl
    intro c hc
    have hcn := Finset.mem_range.mp hc
    rw [hrecon c c hcn hcn]
    have hi : ∀ r ∈ Finset.range c, csm r c * (steerVec r).conj
        = recon r c * (steerVec r).conj := by
      intro r hr
      rw [hrecon r c (lt_trans (Finset.mem_range.mp hr) hcn) hcn]
    rw [Finset.sum_congr rfl hi]
  have hscalarFull :
      (∑ c ∈ Finset.range nMics,
        (2 * ((∑ r ∈ Finset.range c, csm r c * (steerVec r).conj) * steerVec c).re
          + (csm c c * (steerVec c).conj * steerVec c).re))
        = (quadForm nMics recon steerVec).re := by
    rw [hupcongr]
    exact scalarProdFull_eq_re_quadForm nMics recon steerVec (fun r c hrc _ => hherm r c)
  have hre : (quadForm nMics recon steerVec).re
      = ∑ i ∈ Finset.range nEV,
          ((∑ m ∈ Finset.range nMics, (eigVec m i).conj * steerVec m)
            * (∑ m ∈ Finset.range nMics, (eigVec m i).conj * steerVec m).conj).re
            * eigVal i := by
    rw [hreconDef]
    rw [quadForm_reconstruction nMics nEV eigVal eigVec steerVec, Cx.re_sum]
    apply Finset.sum_congr rfl
    intro i _
    rw [Cx.ofRat_mul_re]
    rw [mul_comm ((∑ m ∈ Finset.range nMics, (eigVec m i).conj * steerVec m).conj)
      (∑ m ∈ Finset.range nMics, (eigVec m i).conj * steerVec m)]
    ring
  have hdiagmatch :
      (∑ c ∈ Finset.range nMics, (csm c c * (steerVec c).conj * steerVec c).re)
        = ∑ i ∈ Finset.range nEV,
            (∑ m ∈ Finset.range nMics,
              (((eigVec m i).conj * steerVec m)
                * ((eigVec m i).conj * steerVec m).conj).re) * eigVal i := by
    have hterm : ∀ c ∈ Finset.range nMics,
        (csm c c * (steerVec c).conj * steerVec c).re
          = ∑ i ∈ Finset.range nEV,
              (((eigVec c i).conj * steerVec c)
                * ((eigVec c i).conj * steerVec c).conj).re * eigVal i := by
      intro c hc
      have hcn := Finset.mem_range.mp hc
      rw [hrecon c c hcn hcn, Finset.sum_mul, Finset.sum_mul, Cx.re_sum]
      apply Finset.sum_congr rfl
      intro i _
      have hconjprod : ((eigVec c i).conj * steerVec c).conj
          = eigVec c i * (steerVec c).conj := by
        rw [Cx.conj_mul, Cx.conj_conj]
      have hprod : Cx.ofRat (eigVal i) * eigVec c i * (eigVec c i).conj
            * (steerVec c).conj * steerVec c
          = Cx.ofRat (eigVal i)
            * (((eigVec c i).conj * steerVec c) * (((eigVec c i).conj * steerVec c)).conj) := by
        rw [hconjprod]
        ring
      rw [hprod, Cx.ofRat_mul_re]
      ring
    rw [Finset.sum_congr rfl hterm, Finset.sum_comm]
    apply Finset.sum_congr rfl
    intro i _
    rw [Finset.sum_mul]
  refine ⟨?_, ?_, ?_⟩
  · simp only [freqBeamformer_EigValProb_SpecificSteerVec_FullCSM,
      freqBeamformer_SpecificSteerVec_FullCSM]
    rw [hscalarFull, hre]
  · simp only [freqBeamformer_EigValProb_SpecificSteerVec_CsmRemovedDiag,
      freqBeamformer_SpecificSteerVec_CsmRemovedDiag]
    have hsplitEig : (∑ i ∈ Finset.range nEV,
        (((∑ m ∈ Finset.range nMics, (eigVec m i).conj * steerVec m)
            * (∑ m ∈ Finset.range nMics, (eigVec m i).conj * steerVec m).conj).re
          - ∑ m ∈ Finset.range nMics,
              (((eigVec m i).conj * steerVec m)
                * ((eigVec m i).conj * steerVec m).conj).re) * eigVal i)
        = (∑ i ∈ Finset.range nEV,
            ((∑ m ∈ Finset.range nMics, (eigVec m i).conj * steerVec m)
              * (∑ m ∈ Finset.range nMics, (eigVec m i).conj * steerVec m).conj).re
              * eigVal i)
          - ∑ i ∈ Finset.range nEV,
              (∑ m ∈ Finset.range nMics,
                (((eigVec m i).conj * steerVec m)
                  * ((eigVec m i).conj * steerVec m).conj).re) * eigVal i := by
      rw [← Finset.sum_sub_distrib]
      apply Finset.sum_congr rfl
      intro i _
      ring
    have hsplitDirect : (∑ c ∈ Finset.range nMics,
        (2 * ((∑ r ∈ Finset.range c, csm r c * (steerVec r).conj) * steerVec c).re
          + (csm c c * (steerVec c).conj * steerVec c).re))
        = (∑ c ∈ Finset.range nMics,
            2 * ((∑ r ∈ Finset.range c, csm r c * (steerVec r).conj) * steerVec c).re)
          + ∑ c ∈ Finset.range nMics, (csm c c * (steerVec c).conj * steerVec c).re :=
      Finset.sum_add_distrib
    have hdirectRemoved : (∑ c ∈ Finset.range nMics,
        2 * ((∑ r ∈ Finset.range c, csm r c * (steerVec r).conj) * steerVec c).re)
        = (∑ c ∈ Finset.range nMics,
            (2 * ((∑ r ∈ Finset.range c, csm r c * (steerVec r).conj) * steerVec c).re
              + (csm c c * (steerVec c).conj * steerVec c).re))
          - ∑ c ∈ Finset.range nMics, (csm c c * (steerVec c).conj * steerVec c).re := by
      rw [hsplitDirect]
      ring
    rw [hsplitEig, hdirectRemoved, hscalarFull, hre, hdiagmatch]
  · rw [hquadcongr, hre]

/-- Witness for C2: a concrete diagonal CSM reconstructed from two standard
eigenpairs. -/
theorem claim_C2_witness :
    (∀ r c, r < 2 → c < 2 →
      (fun r c : ℕ => if r = c then (if r = 0 then (⟨1, 0⟩ : Cx) else ⟨2, 0⟩) else 0) r c
        = ∑ i ∈ Finset.range 2,
            Cx.ofRat ((fun i : ℕ => if i = 0 then (1 : ℚ) else 2) i)
              * (fun m i : ℕ => if m = i then (1 : Cx) else 0) r i
              * ((fun m i : ℕ => if m = i then (1 : Cx) else 0) c i).conj)
    ∧ (freqBeamformer_EigValProb_SpecificSteerVec_FullCSM 2 2
          (fun i => if i = 0 then (1 : ℚ) else 2)
          (fun m i => if m = i then 1 else 0)
          (fun m => if m = 0 then (⟨1, 0⟩ : Cx) else ⟨1, 1⟩) 1
        = freqBeamformer_SpecificSteerVec_FullCSM 2
            (fun r c : ℕ => if r = c then (if r = 0 then (⟨1, 0⟩ : Cx) else ⟨2, 0⟩) else 0)
            (fun m => if m = 0 then (⟨1, 0⟩ : Cx) else ⟨1, 1⟩) 1
      ∧ freqBeamformer_EigValProb_SpecificSteerVec_CsmRemovedDiag 2 2
          (fun i => if i = 0 then (1 : ℚ) else 2)
          (fun m i => if m = i then 1 else 0)
          (fun m => if m = 0 then (⟨1, 0⟩ : Cx) else ⟨1, 1⟩) 1
        = freqBeamformer_SpecificSteerVec_CsmRemovedDiag 2
            (fun r c : ℕ => if r = c then (if r = 0 then (⟨1, 0⟩ : Cx) else ⟨2, 0⟩) else 0)
            (fun m => if m = 0 then (⟨1, 0⟩ : Cx) else ⟨1, 1⟩) 1
      ∧ (∑ i ∈ Finset.range 2,
          ((∑ m ∈ Finset.range 2,
              ((fun m i : ℕ => if m = i then (1 : Cx) else 0) m i).conj
                * (fun m : ℕ => if m = 0 then (⟨1, 0⟩ : Cx) else ⟨1, 1⟩) m)
            * (∑ m ∈ Finset.range 2,
                ((fun m i : ℕ => if m = i then (1 : Cx) else 0) m i).conj
                  * (fun m : ℕ => if m = 0 then (⟨1, 0⟩ : Cx) else ⟨1, 1⟩) m).conj).re
            * (fun i : ℕ => if i = 0 then (1 : ℚ) else 2) i)
        = (quadForm 2
            (fun r c : ℕ => if r = c then (if r = 0 then (⟨1, 0⟩ : Cx) else ⟨2, 0⟩) else 0)
            (fun m => if m = 0 then (⟨1, 0⟩ : Cx) else ⟨1, 1⟩)).re) :=
  ⟨by
      intro r c hr hc
      interval_cases r <;> interval_cases c <;>
        (apply Cx.ext <;> simp [Finset.sum_range_succ, Cx.ofRat, Cx.conj] <;> norm_num),
    claim_C2_eigen_direct_equivalence 2 2 (fun i => if i = 0 then (1 : ℚ) else 2)
      (fun m i => if m = i then 1 else 0)
      (fun r c : ℕ => if r = c then (if r = 0 then (⟨1, 0⟩ : Cx) else ⟨2, 0⟩) else 0)
      (fun m => if m = 0 then (⟨1, 0⟩ : Cx) else ⟨1, 1⟩) 1
      (by
        intro r c hr hc
        interval_cases r <;> interval_cases c <;>
          (apply Cx.ext <;> simp [Finset.sum_range_succ, Cx.ofRat, Cx.conj] <;> norm_num))⟩

/-- C3: the full-CSM kernel result minus the diagonal-removed kernel result
(same inputs, caller-supplied steering vector) equals exactly the
diagonal-only contribution scaled by the normalization factor: for the direct
path `sum_m csm[m,m] * |steer[m]|^2`, for the eigen path
`sum_i eigVal[i] * sum_m |eigVec[m,i]^* steer[m]|^2`. -/
theorem claim_C3_diag_removal_difference (nMics nEV : ℕ) (csm : ℕ → ℕ → Cx)
    (eigVal : ℕ → ℚ) (eigVec : ℕ → ℕ → Cx) (steerVec : ℕ → Cx) (normFactor : ℚ)
    (hdiag : ∀ m, m < nMics → (csm m m).im = 0) :
    freqBeamformer_SpecificSteerVec_FullCSM nMics csm steerVec normFactor
      - freqBeamformer_SpecificSteerVec_CsmRemovedDiag nMics csm steerVec normFactor
      = (∑ m ∈ Finset.range nMics,
          (csm m m).re * ((steerVec m) * (steerVec m).conj).re) * normFactor
    ∧ freqBeamformer_EigValProb_SpecificSteerVec_FullCSM nMics nEV eigVal eigVec steerVec
        normFactor
      - freqBeamformer_EigValProb_SpecificSteerVec_CsmRemovedDiag nMics nEV eigVal eigVec
        steerVec normFactor
      = (∑ i ∈ Finset.range nEV, eigVal i * ∑ m ∈ Finset.range nMics,
          (((eigVec m i).conj * steerVec m)
            * ((eigVec m i).conj * steerVec m).conj).re) * normFactor := by
  constructor
  · simp only [freqBeamformer_SpecificSteerVec_FullCSM,
      freqBeamformer_SpecificSteerVec_CsmRemovedDiag]
    rw [Finset.sum_add_distrib]
    have hdterm : ∀ c ∈ Finset.range nMics,
        (csm c c * (steerVec c).conj * steerVec c).re
          = (csm c c).re * ((steerVec c) * (steerVec c).conj).re := by
      intro c hc
      have hzero := hdiag c (Finset.mem_range.mp hc)
      simp only [Cx.mul_re, Cx.mul_im, Cx.conj_re, Cx.conj_im, hzero]
      ring
    rw [Finset.sum_congr rfl hdterm]
    ring
  · simp only [freqBeamformer_EigValProb_SpecificSteerVec_FullCSM,
      freqBeamformer_EigValProb_SpecificSteerVec_CsmRemovedDiag]
    have hsplit : (∑ i ∈ Finset.range nEV,
        (((∑ m ∈ Finset.range nMics, (eigVec m i).conj * steerVec m)
            * (∑ m ∈ Finset.range nMics, (eigVec m i).conj * steerVec m).conj).re
          - ∑ m ∈ Finset.range nMics,
              (((eigVec m i).conj * steerVec m)
                * ((eigVec m i).conj * steerVec m).conj).re) * eigVal i)
        = (∑ i ∈ Finset.range nEV,
            ((∑ m ∈ Finset.range nMics, (eigVec m i).conj * steerVec m)
              * (∑ m ∈ Finset.range nMics, (eigVec m i).conj * steerVec m).conj).re
              * eigVal i)
          - ∑ i ∈ Finset.range nEV,
              (∑ m ∈ Finset.range nMics,
                (((eigVec m i).conj * steerVec m)
                  * ((eigVec m i).conj * steerVec m).conj).re) * eigVal i := by
      rw [← Finset.sum_sub_distrib]
      exact Finset.sum_congr rfl (fun i _ => by ring)
    rw [hsplit]
    have hcomm : ∀ i ∈ Finset.range nEV,
        (∑ m ∈ Finset.range nMics,
          (((eigVec m i).conj * steerVec m)
            * ((eigVec m i).conj * steerVec m).conj).re) * eigVal i
          = eigVal i * ∑ m ∈ Finset.range nMics,
              (((eigVec m i).conj * steerVec m)
                * ((eigVec m i).conj * steerVec m).conj).re :=
      fun i _ => mul_comm _ _
    rw [← Finset.sum_congr rfl hcomm]
    ring

/-- Witness for C3 at a concrete 2-mic, 1-eigenpair input. -/
theorem claim_C3_witness :
    (∀ m, m < 2 →
      (((fun r c : ℕ => if r = c then (⟨3, 0⟩ : Cx) else ⟨1, 2⟩) m m).im = 0))
    ∧ (freqBeamformer_SpecificSteerVec_FullCSM 2
          (fun r c : ℕ => if r = c then (⟨3, 0⟩ : Cx) else ⟨1, 2⟩)
          (fun m => if m = 0 then (⟨1, 1⟩ : Cx) else ⟨2, 0⟩) 2
        - freqBeamformer_SpecificSteerVec_CsmRemovedDiag 2
            (fun r c : ℕ => if r = c then (⟨3, 0⟩ : Cx) else ⟨1, 2⟩)
            (fun m => if m = 0 then (⟨1, 1⟩ : Cx) else ⟨2, 0⟩) 2
        = (∑ m ∈ Finset.range 2,
            (((fun r c : ℕ => if r = c then (⟨3, 0⟩ : Cx) else ⟨1, 2⟩) m m).re
              * (((fun m : ℕ => if m = 0 then (⟨1, 1⟩ : Cx) else ⟨2, 0⟩) m)
                * ((fun m : ℕ => if m = 0 then (⟨1, 1⟩ : Cx) else ⟨2, 0⟩) m).conj).re)) * 2
      ∧ freqBeamformer_EigValProb_SpecificSteerVec_FullCSM 2 1 (fun _ => 5)
          (fun m _ => if m = 0 then (⟨0, 1⟩ : Cx) else ⟨1, 0⟩)
          (fun m => if m = 0 then (⟨1, 1⟩ : Cx) else ⟨2, 0⟩) 2
        - freqBeamformer_EigValProb_SpecificSteerVec_CsmRemovedDiag 2 1 (fun _ => 5)
            (fun m _ => if m = 0 then (⟨0, 1⟩ : Cx) else ⟨1, 0⟩)
            (fun m => if m = 0 then (⟨1, 1⟩ : Cx) else ⟨2, 0⟩) 2
        = (∑ i ∈ Finset.range 1, (fun _ : ℕ => (5 : ℚ)) i * ∑ m ∈ Finset.range 2,
            ((((fun m _ : ℕ => if m = 0 then (⟨0, 1⟩ : Cx) else ⟨1, 0⟩) m i).conj
                * (fun m : ℕ => if m = 0 then (⟨1, 1⟩ : Cx) else ⟨2, 0⟩) m)
              * (((fun m _ : ℕ => if m = 0 then (⟨0, 1⟩ : Cx) else ⟨1, 0⟩) m i).conj
                  * (fun m : ℕ => if m = 0 then (⟨1, 1⟩ : Cx) else ⟨2, 0⟩) m).conj).re) * 2) :=
  ⟨by decide,
    claim_C3_diag_removal_difference 2 1
      (fun r c : ℕ => if r = c then (⟨3, 0⟩ : Cx) else ⟨1, 2⟩) (fun _ => 5)
      (fun m _ : ℕ => if m = 0 then (⟨0, 1⟩ : Cx) else ⟨1, 0⟩)
      (fun m => if m = 0 then (⟨1, 1⟩ : Cx) else ⟨2, 0⟩) 2 (by decide)⟩

/-- Pointwise effect of the row loop of `calcCSM`. -/
theorem calcCSM_rowLoop_apply (Spec : ℕ → ℕ → Cx) (f c k : ℕ) (A : ℕ → ℕ → ℕ → Cx)
    (f' r' c' : ℕ) :
    calcCSM_rowLoop Spec f c k A f' r' c'
      = if f' = f ∧ c' = c ∧ r' < k
        then A f' r' c' + (Spec f c).conj * Spec f r'
        else A f' r' c' := by
  induction k with
  | zero => simp [calcCSM_rowLoop]
  | succ k ih =>
      simp only [calcCSM_rowLoop, add3, ih]
      by_cases hf : f' = f
      · by_cases hc : c' = c
        · subst hf
          subst hc
          by_cases hr : r' = k
          · subst hr
            rw [if_pos ⟨rfl, rfl, rfl⟩, if_neg (by rintro ⟨-, -, h⟩; omega),
              if_pos ⟨rfl, rfl, Nat.lt_succ_self _⟩]
          · rw [if_neg (by rintro ⟨-, h, -⟩; exact hr h)]
            by_cases hlt : r' < k
            · rw [if_pos ⟨rfl, rfl, hlt⟩, if_pos ⟨rfl, rfl, by omega⟩]
            · rw [if_neg (by rintro ⟨-, -, h⟩; exact hlt h),
                if_neg (by rintro ⟨-, -, h⟩; omega)]
        · rw [if_neg (by rintro ⟨-, -, h⟩; exact hc h),
            if_neg (by rintro ⟨-, h, -⟩; exact hc h),
            if_neg (by rintro ⟨-, h, -⟩; exact hc h)]
      · rw [if_neg (by rintro ⟨h, -⟩; exact hf h),
          if_neg (by rintro ⟨h, -⟩; exact hf h),
          if_neg (by rintro ⟨h, -⟩; exact hf h)]

/-- Pointwise effect of the column loop of `calcCSM`. -/
theorem calcCSM_colLoop_apply (Spec : ℕ → ℕ → Cx) (f n : ℕ) (A : ℕ → ℕ → ℕ → Cx)
    (f' r' c' : ℕ) :
    calcCSM_colLoop Spec f n A f' r' c'
      = if f' = f ∧ c' < n ∧ r' ≤ c'
        then A f' r' c' + (Spec f c').conj * Spec f r'
        else A f' r' c' := by
  induction n with
  | zero => simp [calcCSM_colLoop]
  | succ n ih =>
      simp only [calcCSM_colLoop]
      rw [calcCSM_rowLoop_apply, ih]
      by_cases hP : f' = f ∧ c' = n ∧ r' < n + 1
      · obtain ⟨hf, hc, hr⟩ := hP
        rw [if_pos ⟨hf, hc, hr⟩,
          if_neg (show ¬(f' = f ∧ c' < n ∧ r' ≤ c') by rintro ⟨-, h, -⟩; omega),
          if_pos (show f' = f ∧ c' < n + 1 ∧ r' ≤ c' from ⟨hf, by omega, by omega⟩), hc]
      · rw [if_neg hP]
        by_cases hQ : f' = f ∧ c' < n ∧ r' ≤ c'
        · rw [if_pos hQ,
            if_pos (show f' = f ∧ c' < n + 1 ∧ r' ≤ c' from ⟨hQ.1, by omega, hQ.2.2⟩)]
        · rw [if_neg hQ,
            if_neg (show ¬(f' = f ∧ c' < n + 1 ∧ r' ≤ c') by
              rintro ⟨hf, hcn1, hr⟩
              rcases Nat.lt_succ_iff_lt_or_eq.mp hcn1 with h | h
              · exact hQ ⟨hf, h, hr⟩
              · exact hP ⟨hf, h, by omega⟩)]

/-- Pointwise effect of the frequency loop of `calcCSM`. -/
theorem calcCSM_freqLoop_apply (Spec : ℕ → ℕ → Cx) (nMics n : ℕ) (A : ℕ → ℕ → ℕ → Cx)
    (f' r' c' : ℕ) :
    calcCSM_freqLoop Spec nMics n A f' r' c'
      = if f' < n ∧ c' < nMics ∧ r' ≤ c'
        then A f' r' c' + (Spec f' c').conj * Spec f' r'
        else A f' r' c' := by
  induction n with
  | zero => simp [calcCSM_freqLoop]
  | succ n ih =>
      simp only [calcCSM_freqLoop]
      rw [calcCSM_colLoop_apply, ih]
      by_cases hP : f' = n ∧ c' < nMics ∧ r' ≤ c'
      · obtain ⟨hf, hc, hr⟩ := hP
        rw [if_pos ⟨hf, hc, hr⟩,
          if_neg (show ¬(f' < n ∧ c' < nMics ∧ r' ≤ c') by rintro ⟨h, -⟩; omega),
          if_pos (show f' < n + 1 ∧ c' < nMics ∧ r' ≤ c' from ⟨by omega, hc, hr⟩), hf]
      · rw [if_neg hP]
        by_cases hQ : f' < n ∧ c' < nMics ∧ r' ≤ c'
        · rw [if_pos hQ,
            if_pos (show f' < n + 1 ∧ c' < nMics ∧ r' ≤ c' from ⟨by omega, hQ.2⟩)]
        · rw [if_neg hQ,
            if_neg (show ¬(f' < n + 1 ∧ c' < nMics ∧ r' ≤ c') by
              rintro ⟨h1, h2, h3⟩
              rcases Nat.lt_succ_iff_lt_or_eq.mp h1 with h | h
              · exact hQ ⟨h, h2, h3⟩
              · exact hP ⟨h, h2, h3⟩)]

/-- C4: after one `calcCSM` call, every in-range entry with row `r <= c`
equals its previous value plus `conj(spectrum[f, c]) * spectrum[f, r]`, and
every strict-lower-triangle entry (`r > c`) is left exactly unchanged. -/
theorem claim_C4_calcCSM_upper_update (nFreqs nMics : ℕ) (csm : ℕ → ℕ → ℕ → Cx)
    (SpecAllMics : ℕ → ℕ → Cx) (f r c : ℕ) :
    (f < nFreqs → c < nMics → r ≤ c →
      calcCSM nFreqs nMics csm SpecAllMics f r c
        = csm f r c + (SpecAllMics f c).conj * SpecAllMics f r)
    ∧ (c < r → calcCSM nFreqs nMics csm SpecAllMics f r c = csm f r c) := by
  unfold calcCSM
  rw [calcCSM_freqLoop_apply]
  constructor
  · intro h1 h2 h3
    rw [if_pos ⟨h1, h2, h3⟩]
  · intro h
    rw [if_neg (by rintro ⟨-, -, hle⟩; omega)]

/-- Witness for C4 at a concrete 1-frequency, 2-mic input. -/
theorem claim_C4_witness :
    (0 < 1 ∧ 1 < 2 ∧ 0 ≤ 1
      ∧ calcCSM 1 2 (fun _ _ _ => ⟨1, 1⟩)
          (fun _ m => if m = 0 then (⟨2, 0⟩ : Cx) else ⟨0, 3⟩) 0 0 1
        = (fun _ _ _ => (⟨1, 1⟩ : Cx)) 0 0 1
          + ((fun _ m : ℕ => if m = 0 then (⟨2, 0⟩ : Cx) else ⟨0, 3⟩) 0 1).conj
            * (fun _ m : ℕ => if m = 0 then (⟨2, 0⟩ : Cx) else ⟨0, 3⟩) 0 0)
    ∧ (0 < 1
      ∧ calcCSM 1 2 (fun _ _ _ => ⟨1, 1⟩)
          (fun _ m => if m = 0 then (⟨2, 0⟩ : Cx) else ⟨0, 3⟩) 0 1 0
        = (fun _ _ _ => (⟨1, 1⟩ : Cx)) 0 1 0) :=
  ⟨⟨Nat.zero_lt_one, Nat.one_lt_two, Nat.zero_le 1,
      (claim_C4_calcCSM_upper_update 1 2 (fun _ _ _ => ⟨1, 1⟩)
        (fun _ m => if m = 0 then (⟨2, 0⟩ : Cx) else ⟨0, 3⟩) 0 0 1).1
        Nat.zero_lt_one Nat.one_lt_two (Nat.zero_le 1)⟩,
    ⟨Nat.zero_lt_one,
      (claim_C4_calcCSM_upper_update 1 2 (fun _ _ _ => ⟨1, 1⟩)
        (fun _ m => if m = 0 then (⟨2, 0⟩ : Cx) else ⟨0, 3⟩) 0 1 0).2 Nat.zero_lt_one⟩⟩

/-- Pointwise effect of the mic loop of `_transferCoreFunc`. -/
theorem transferMicLoop_apply (cosF sinF f32 : ℚ → ℚ) (dc : ℚ) (d : ℕ → ℚ) (k : ℚ)
    (f g n : ℕ) (A : ℕ → ℕ → ℕ → Cx) (f' g' m' : ℕ) :
    transferMicLoop cosF sinF f32 dc d k f g n A f' g' m'
      = if f' = f ∧ g' = g ∧ m' < n
        then Cx.divQ (Cx.mulQ (cisNeg cosF sinF (f32 (k * (d m' - dc)))) dc) (d m')
        else A f' g' m' := by
  induction n with
  | zero => simp [transferMicLoop]
  | succ n ih =>
      simp only [transferMicLoop, set3, ih]
      by_cases hP : f' = f ∧ g' = g ∧ m' = n
      · obtain ⟨h1, h2, h3⟩ := hP
        rw [if_pos ⟨h1, h2, h3⟩, if_pos ⟨h1, h2, by omega⟩, h3]
      · rw [if_neg hP]
        by_cases hQ : f' = f ∧ g' = g ∧ m' < n
        · rw [if_pos hQ, if_pos ⟨hQ.1, hQ.2.1, by omega⟩]
        · rw [if_neg hQ,
            if_neg (show ¬(f' = f ∧ g' = g ∧ m' < n + 1) by
              rintro ⟨ha, hb, hcc⟩
              rcases Nat.lt_succ_iff_lt_or_eq.mp hcc with h | h
              · exact hQ ⟨ha, hb, h⟩
              · exact hP ⟨ha, hb, h⟩)]

/-- Pointwise effect of the grid-point loop of `transfer`. -/
theorem transferGridLoop_apply (cosF sinF f32 : ℚ → ℚ) (dcA : ℕ → ℚ) (dA : ℕ → ℕ → ℚ)
    (k : ℚ) (nMics f n : ℕ) (A : ℕ → ℕ → ℕ → Cx) (f' g' m' : ℕ) :
    transferGridLoop cosF sinF f32 dcA dA k nMics f n A f' g' m'
      = if f' = f ∧ g' < n ∧ m' < nMics
        then Cx.divQ (Cx.mulQ (cisNeg cosF sinF (f32 (k * (dA g' m' - dcA g'))))
          (dcA g')) (dA g' m')
        else A f' g' m' := by
  induction n with
  | zero => simp [transferGridLoop]
  | succ n ih =>
      simp only [transferGridLoop]
      rw [transferMicLoop_apply, ih]
      by_cases hP : f' = f ∧ g' = n ∧ m' < nMics
      · obtain ⟨h1, h2, h3⟩ := hP
        rw [if_pos ⟨h1, h2, h3⟩,
          if_pos (show f' = f ∧ g' < n + 1 ∧ m' < nMics from ⟨h1, by omega, h3⟩), h2]
      · rw [if_neg hP]
        by_cases hQ : f' = f ∧ g' < n ∧ m' < nMics
        · rw [if_pos hQ,
            if_pos (show f' = f ∧ g' < n + 1 ∧ m' < nMics from ⟨hQ.1, by omega, hQ.2.2⟩)]
        · rw [if_neg hQ,
            if_neg (show ¬(f' = f ∧ g' < n + 1 ∧ m' < nMics) by
              rintro ⟨ha, hb, hcc⟩
              rcases Nat.lt_succ_iff_lt_or_eq.mp hb with h | h
              · exact hQ ⟨ha, h, hcc⟩
              · exact hP ⟨ha, h, hcc⟩)]

/-- Pointwise effect of the frequency loop of `transfer`. -/
theorem transferFreqLoop_apply (cosF sinF f32 : ℚ → ℚ) (dcA : ℕ → ℚ) (dA : ℕ → ℕ → ℚ)
    (w : ℕ → Cx) (nGridPoints nMics n : ℕ) (A : ℕ → ℕ → ℕ → Cx) (f' g' m' : ℕ) :
    transferFreqLoop cosF sinF f32 dcA dA w nGridPoints nMics n A f' g' m'
      = if f' < n ∧ g' < nGridPoints ∧ m' < nMics
        then Cx.divQ (Cx.mulQ (cisNeg cosF sinF
            ((f32 ((w f').im * (dA g' m' - dcA g'))))) (dcA g')) (dA g' m')
        else A f' g' m' := by
  induction n with
  | zero => simp [transferFreqLoop]
  | succ n ih =>
      simp only [transferFreqLoop]
      rw [transferGridLoop_apply, ih]
      by_cases hP : f' = n ∧ g' < nGridPoints ∧ m' < nMics
      · obtain ⟨h1, h2, h3⟩ := hP
        rw [if_pos ⟨h1, h2, h3⟩,
          if_pos (show f' < n + 1 ∧ g' < nGridPoints ∧ m' < nMics from ⟨by omega, h2, h3⟩), h1]
      · rw [if_neg hP]
        by_cases hQ : f' < n ∧ g' < nGridPoints ∧ m' < nMics
        · rw [if_pos hQ,
            if_pos (show f' < n + 1 ∧ g' < nGridPoints ∧ m' < nMics from ⟨by omega, hQ.2⟩)]
        · rw [if_neg hQ,
            if_neg (show ¬(f' < n + 1 ∧ g' < nGridPoints ∧ m' < nMics) by
              rintro ⟨h1, h2, h3⟩
              rcases Nat.lt_succ_iff_lt_or_eq.mp h1 with h | h
              · exact hQ ⟨h, h2, h3⟩
              · exact hP ⟨h, h2, h3⟩)]

/-- C8: every in-range entry of the transfer-function output equals
`exp(-j k_f (dist[g,m] - distCenter[g])) * distCenter[g] / dist[g,m]` with
`k_f` the imaginary part of `wavenumber[f]` and the phase argument rounded
(by `f32`) before the complex exponential `cos - j sin` is taken. -/
theorem claim_C8_transfer_pointwise (nFreqs nGridPoints nMics : ℕ) (cosF sinF f32 : ℚ → ℚ)
    (distGridToArrayCenter : ℕ → ℚ) (distGridToAllMics : ℕ → ℕ → ℚ) (wavenumber : ℕ → Cx)
    (f g m : ℕ) (hf : f < nFreqs) (hg : g < nGridPoints) (hm : m < nMics) :
    transfer nFreqs nGridPoints nMics cosF sinF f32 distGridToArrayCenter distGridToAllMics
        wavenumber f g m
      = Cx.divQ (Cx.mulQ (cisNeg cosF sinF
            (f32 ((wavenumber f).im * (distGridToAllMics g m - distGridToArrayCenter g))))
          (distGridToArrayCenter g)) (distGridToAllMics g m) := by
  unfold transfer
  rw [transferFreqLoop_apply, if_pos ⟨hf, hg, hm⟩]

/-- Witness for C8 at a concrete one-entry input. -/
theorem claim_C8_witness :
    (0 < 1 ∧ 0 < 1 ∧ 0 < 1)
    ∧ transfer 1 1 1 id id id (fun _ => 2) (fun _ _ => 3) (fun _ => ⟨7, 5⟩) 0 0 0
      = Cx.divQ (Cx.mulQ (cisNeg id id
            (id (((⟨7, 5⟩ : Cx)).im * ((fun _ _ : ℕ => (3 : ℚ)) 0 0 - (fun _ : ℕ => (2 : ℚ)) 0))))
          ((fun _ : ℕ => (2 : ℚ)) 0)) ((fun _ _ : ℕ => (3 : ℚ)) 0 0) :=
  ⟨⟨Nat.zero_lt_one, Nat.zero_lt_one, Nat.zero_lt_one⟩,
    claim_C8_transfer_pointwise 1 1 1 id id id (fun _ => 2) (fun _ _ => 3) (fun _ => ⟨7, 5⟩)
      0 0 0 Nat.zero_lt_one Nat.zero_lt_one Nat.zero_lt_one⟩

/-- C9: two wavenumber arrays with identical imaginary parts (and arbitrary
real parts) produce identical outputs from the `beamformerFreq` dispatcher
(for every formulation and eigen/diagonal-removal setting) and from
`transfer`: the real part of the wavenumber is never used. -/
theorem claim_C9_wavenumber_real_part_unused (nFreqs nGridPoints nMics nEV : ℕ)
    (cosF sinF f32 : ℚ → ℚ) (normFactor : ℚ) (distGridToArrayCenter : ℕ → ℚ)
    (distGridToAllMics : ℕ → ℕ → ℚ) (w1 w2 : ℕ → Cx) (csm : ℕ → ℕ → ℕ → Cx)
    (eigVal : ℕ → ℕ → ℚ) (eigVec : ℕ → ℕ → ℕ → Cx)
    (him : ∀ f, (w1 f).im = (w2 f).im) :
    (∀ (boolIsEigValProb : Bool) (steerVecType : ℕ) (boolRemovedDiagOfCSM : Bool),
      beamformerFreq nFreqs nGridPoints nMics nEV cosF sinF f32 boolIsEigValProb steerVecType
          boolRemovedDiagOfCSM normFactor distGridToArrayCenter distGridToAllMics w1 csm
          eigVal eigVec
        = beamformerFreq nFreqs nGridPoints nMics nEV cosF sinF f32 boolIsEigValProb
            steerVecType boolRemovedDiagOfCSM normFactor distGridToArrayCenter
            distGridToAllMics w2 csm eigVal eigVec)
    ∧ transfer nFreqs nGridPoints nMics cosF sinF f32 distGridToArrayCenter distGridToAllMics
        w1
      = transfer nFreqs nGridPoints nMics cosF sinF f32 distGridToArrayCenter distGridToAllMics
          w2 := by
  constructor
  · intro eig sv rm
    cases eig <;> cases rm <;>
      rcases sv with _ | _ | _ | _ | _ | sv <;>
        simp only [beamformerFreq, him]
  · unfold transfer
    have hloop : ∀ (n : ℕ) (A : ℕ → ℕ → ℕ → Cx),
        transferFreqLoop cosF sinF f32 distGridToArrayCenter distGridToAllMics w1
            nGridPoints nMics n A
          = transferFreqLoop cosF sinF f32 distGridToArrayCenter distGridToAllMics w2
              nGridPoints nMics n A := by
      intro n
      induction n with
      | zero => intro A; rfl
      | succ n ih =>
          intro A
          simp only [transferFreqLoop, him, ih]
    exact hloop nFreqs _

/-- Witness for C9: two wavenumber arrays differing only in their real
parts. -/
theorem claim_C9_witness :
    (∀ f : ℕ, (((fun _ => (⟨3, 4⟩ : Cx)) : ℕ → Cx) f).im
        = (((fun _ => (⟨9, 4⟩ : Cx)) : ℕ → Cx) f).im)
    ∧ ((∀ (boolIsEigValProb : Bool) (steerVecType : ℕ) (boolRemovedDiagOfCSM : Bool),
        beamformerFreq 1 1 1 1 id id id boolIsEigValProb steerVecType boolRemovedDiagOfCSM
            1 (fun _ => 1) (fun _ _ => 1) (fun _ => ⟨3, 4⟩) (fun _ _ _ => ⟨1, 0⟩)
            (fun _ _ => 1) (fun _ _ _ => ⟨1, 0⟩)
          = beamformerFreq 1 1 1 1 id id id boolIsEigValProb steerVecType
              boolRemovedDiagOfCSM 1 (fun _ => 1) (fun _ _ => 1) (fun _ => ⟨9, 4⟩)
              (fun _ _ _ => ⟨1, 0⟩) (fun _ _ => 1) (fun _ _ _ => ⟨1, 0⟩))
      ∧ transfer 1 1 1 id id id (fun _ => 1) (fun _ _ => 1) (fun _ => ⟨3, 4⟩)
        = transfer 1 1 1 id id id (fun _ => 1) (fun _ _ => 1) (fun _ => ⟨9, 4⟩)) :=
  ⟨fun _ => rfl,
    claim_C9_wavenumber_real_part_unused 1 1 1 1 id id id 1 (fun _ => 1) (fun _ _ => 1)
      (fun _ => ⟨3, 4⟩) (fun _ => ⟨9, 4⟩) (fun _ _ _ => ⟨1, 0⟩) (fun _ _ => 1)
      (fun _ _ _ => ⟨1, 0⟩) (fun _ => rfl)⟩

/-- C6 (amended): among the Formulation-I eigen kernels it is the FULL-CSM
variant whose steering-vector phase argument is
`waveNumber * distGridToAllMics[m]` without subtracting
`distGridToArrayCenter`, while the diagonal-removed sibling and the other
formulations' eigen kernels (both variants) use
`waveNumber * (distGridToAllMics[m] - distGridToArrayCenter)`.  Each kernel
is shown equal to the caller-supplied-steering eigen kernel applied to the
explicitly displayed steering vector and rescaled normalization. -/
theorem claim_C6_eigen_steering_args (nMics nEV : ℕ) (cosF sinF f32 : ℚ → ℚ)
    (eigVal : ℕ → ℚ) (eigVec : ℕ → ℕ → Cx) (distGridToArrayCenter : ℚ)
    (distGridToAllMics : ℕ → ℚ) (waveNumber normFactor : ℚ) :
    freqBeamformer_EigValProb_Formulation1AkaClassic_FullCSM nMics nEV cosF sinF f32 eigVal
        eigVec distGridToArrayCenter distGridToAllMics waveNumber normFactor
      = freqBeamformer_EigValProb_SpecificSteerVec_FullCSM nMics nEV eigVal eigVec
          (fun m => cisNeg cosF sinF (f32 (waveNumber * distGridToAllMics m)))
          (normFactor / ((nMics : ℚ) * nMics))
    ∧ freqBeamformer_EigValProb_Formulation1AkaClassic_CsmRemovedDiag nMics nEV cosF sinF f32
        eigVal eigVec distGridToArrayCenter distGridToAllMics waveNumber normFactor
      = freqBeamformer_EigValProb_SpecificSteerVec_CsmRemovedDiag nMics nEV eigVal eigVec
          (fun m => cisNeg cosF sinF
            (f32 (waveNumber * (distGridToAllMics m - distGridToArrayCenter))))
          (normFactor / ((nMics : ℚ) * nMics))
    ∧ freqBeamformer_EigValProb_Formulation2AkaInverse_FullCSM nMics nEV cosF sinF f32 eigVal
        eigVec distGridToArrayCenter distGridToAllMics waveNumber normFactor
      = freqBeamformer_EigValProb_SpecificSteerVec_FullCSM nMics nEV eigVal eigVec
          (fun m => (cisNeg cosF sinF
              (f32 (waveNumber * (distGridToAllMics m - distGridToArrayCenter)))).mulQ
            (distGridToAllMics m))
          (normFactor / (((nMics : ℚ) * distGridToArrayCenter)
            * ((nMics : ℚ) * distGridToArrayCenter)))
    ∧ freqBeamformer_EigValProb_Formulation2AkaInverse_CsmRemovedDiag nMics nEV cosF sinF f32
        eigVal eigVec distGridToArrayCenter distGridToAllMics waveNumber normFactor
      = freqBeamformer_EigValProb_SpecificSteerVec_CsmRemovedDiag nMics nEV eigVal eigVec
          (fun m => (cisNeg cosF sinF
              (f32 (waveNumber * (distGridToAllMics m - distGridToArrayCenter)))).mulQ
            (distGridToAllMics m))
          (normFactor / (((nMics : ℚ) * distGridToArrayCenter)
            * ((nMics : ℚ) * distGridToArrayCenter)))
    ∧ freqBeamformer_EigValProb_Formulation3AkaTrueLevel_FullCSM nMics nEV cosF sinF f32
        eigVal eigVec distGridToArrayCenter distGridToAllMics waveNumber normFactor
      = freqBeamformer_EigValProb_SpecificSteerVec_FullCSM nMics nEV eigVal eigVec
          (fun m => (cisNeg cosF sinF
              (f32 (waveNumber * (distGridToAllMics m - distGridToArrayCenter)))).divQ
            (distGridToAllMics m))
          (normFactor / ((distGridToArrayCenter
              * ∑ m ∈ Finset.range nMics, 1 / (distGridToAllMics m * distGridToAllMics m))
            * (distGridToArrayCenter
              * ∑ m ∈ Finset.range nMics, 1 / (distGridToAllMics m * distGridToAllMics m))))
    ∧ freqBeamformer_EigValProb_Formulation3AkaTrueLevel_CsmRemovedDiag nMics nEV cosF sinF
        f32 eigVal eigVec distGridToArrayCenter distGridToAllMics waveNumber normFactor
      = freqBeamformer_EigValProb_SpecificSteerVec_CsmRemovedDiag nMics nEV eigVal eigVec
          (fun m => (cisNeg cosF sinF
              (f32 (waveNumber * (distGridToAllMics m - distGridToArrayCenter)))).divQ
            (distGridToAllMics m))
          (normFactor / ((distGridToArrayCenter
              * ∑ m ∈ Finset.range nMics, 1 / (distGridToAllMics m * distGridToAllMics m))
            * (distGridToArrayCenter
              * ∑ m ∈ Finset.range nMics, 1 / (distGridToAllMics m * distGridToAllMics m))))
    ∧ freqBeamformer_EigValProb_Formulation4AkaTrueLocation_FullCSM nMics nEV cosF sinF f32
        eigVal eigVec distGridToArrayCenter distGridToAllMics waveNumber normFactor
      = freqBeamformer_EigValProb_SpecificSteerVec_FullCSM nMics nEV eigVal eigVec
          (fun m => (cisNeg cosF sinF
              (f32 (waveNumber * (distGridToAllMics m - distGridToArrayCenter)))).divQ
            (distGridToAllMics m))
          (normFactor / ((nMics : ℚ)
            * ∑ m ∈ Finset.range nMics, 1 / (distGridToAllMics m * distGridToAllMics m)))
    ∧ freqBeamformer_EigValProb_Formulation4AkaTrueLocation_CsmRemovedDiag nMics nEV cosF sinF
        f32 eigVal eigVec distGridToArrayCenter distGridToAllMics waveNumber normFactor
      = freqBeamformer_EigValProb_SpecificSteerVec_CsmRemovedDiag nMics nEV eigVal eigVec
          (fun m => (cisNeg cosF sinF
              (f32 (waveNumber * (distGridToAllMics m - distGridToArrayCenter)))).divQ
            (distGridToAllMics m))
          (normFactor / ((nMics : ℚ)
            * ∑ m ∈ Finset.range nMics, 1 / (distGridToAllMics m * distGridToAllMics m))) := by
  refine ⟨?_, ?_, ?_, ?_, ?_, ?_, ?_, ?_⟩ <;>
    simp only [freqBeamformer_EigValProb_Formulation1AkaClassic_FullCSM,
      freqBeamformer_EigValProb_Formulation1AkaClassic_CsmRemovedDiag,
      freqBeamformer_EigValProb_Formulation2AkaInverse_FullCSM,
      freqBeamformer_EigValProb_Formulation2AkaInverse_CsmRemovedDiag,
      freqBeamformer_EigValProb_Formulation3AkaTrueLevel_FullCSM,
      freqBeamformer_EigValProb_Formulation3AkaTrueLevel_CsmRemovedDiag,
      freqBeamformer_EigValProb_Formulation4AkaTrueLocation_FullCSM,
      freqBeamformer_EigValProb_Formulation4AkaTrueLocation_CsmRemovedDiag,
      freqBeamformer_EigValProb_SpecificSteerVec_FullCSM,
      freqBeamformer_EigValProb_SpecificSteerVec_CsmRemovedDiag] <;>
    ring

/-- Counterexample to C6 as stated: at a concrete one-mic input the
Formulation-I FULL-CSM eigen kernel does not equal the computation that
builds the steering vector from the subtracted argument
`waveNumber * (dist - distCenter)` which the claim attributes to it. -/
theorem claim_C6_counterexample :
    freqBeamformer_EigValProb_Formulation1AkaClassic_FullCSM 1 1 id (fun _ => 0) id
        (fun _ => 1) (fun _ _ => ⟨1, 0⟩) 1 (fun _ => 2) 1 1
      ≠ freqBeamformer_EigValProb_SpecificSteerVec_FullCSM 1 1 (fun _ => 1)
          (fun _ _ => ⟨1, 0⟩)
          (fun m => cisNeg id (fun _ => 0) (id ((1 : ℚ) * ((fun _ => (2 : ℚ)) m - 1))))
          (1 / ((1 : ℚ) * 1)) := by
  simp only [freqBeamformer_EigValProb_Formulation1AkaClassic_FullCSM,
    freqBeamformer_EigValProb_SpecificSteerVec_FullCSM, cisNeg, Cx.conj,
    Finset.sum_range_succ, Finset.sum_range_zero, id]
  norm_num [Cx.mul_re]

/-- `abs(eps).max()` of the all-ones initial discrepancy vector is `1` for at
least one microphone. -/
theorem maxAbs_const_one (M : ℕ) (hM : 1 ≤ M) : maxAbs M (fun _ => (1 : ℚ)) = 1 := by
  obtain ⟨k, rfl⟩ : ∃ k, M = k + 1 := ⟨M - 1, by omega⟩
  clear hM
  unfold maxAbs
  induction k with
  | zero => simp [List.range_succ]
  | succ k ih =>
      rw [List.range_succ, List.foldl_append, ih]
      simp

/-- Once the per-mic discrepancy of the current emission times vanishes, the
Newton-Raphson loop leaves the state unchanged for any remaining fuel and any
last discrepancy vector. -/
theorem nrLoop_fixpoint (M : ℕ) (sqrtF : ℚ → ℚ) (trLoc trDer : ℚ → Vec3) (mpos : ℕ → Vec3)
    (c0 epslim : ℚ) (t te rmv : ℕ → ℚ)
    (hfix : ∀ m, newtonEps sqrtF trLoc trDer mpos c0 t te m = 0)
    (hrm : (fun m => trajRm sqrtF trLoc mpos te m) = rmv) :
    ∀ (fuel : ℕ) (eps : ℕ → ℚ),
      nrLoop M sqrtF trLoc trDer mpos c0 epslim t fuel te eps rmv = (te, rmv) := by
  intro fuel
  induction fuel with
  | zero => intro eps; rfl
  | succ fuel ih =>
      intro eps
      simp only [nrLoop]
      split_ifs with h
      · have hte : (fun m => te m - newtonEps sqrtF trLoc trDer mpos c0 t te m) = te :=
          funext (fun m => by rw [hfix m]; ring)
        rw [hte, hrm]
        exact ih _
      · rfl

/-- One executed iteration of the Newton-Raphson loop. -/
theorem nrLoop_succ_step (M : ℕ) (sqrtF : ℚ → ℚ) (trLoc trDer : ℚ → Vec3) (mpos : ℕ → Vec3)
    (c0 epslim : ℚ) (t : ℕ → ℚ) (fuel : ℕ) (te eps rm : ℕ → ℚ)
    (h : maxAbs M eps > epslim) :
    nrLoop M sqrtF trLoc trDer mpos c0 epslim t (fuel + 1) te eps rm
      = nrLoop M sqrtF trLoc trDer mpos c0 epslim t fuel
          (fun m => te m - newtonEps sqrtF trLoc trDer mpos c0 t te m)
          (fun m => newtonEps sqrtF trLoc trDer mpos c0 t te m)
          (fun m => trajRm sqrtF trLoc mpos te m) := by
  simp only [nrLoop]
  rw [if_pos h]

/-- For a stationary trajectory (constant position `p`, zero velocity), the
per-sample solve `newtonSolve` returns exactly `te = t - r/c0` and the
distance array `r`, where `r[m]` is the source-to-mic distance. -/
theorem newtonSolve_stationary (M : ℕ) (sqrtF : ℚ → ℚ) (trLoc trDer : ℚ → Vec3)
    (mpos : ℕ → Vec3) (c0 epslim : ℚ) (t : ℕ → ℚ) (p : Vec3)
    (hM : 1 ≤ M) (hloc : ∀ s, trLoc s = p) (hder : ∀ s, trDer s = ⟨0, 0, 0⟩)
    (heps : epslim < 1) :
    newtonSolve M sqrtF trLoc trDer mpos c0 epslim t
      = (fun m => t m - sqrtF (Vec3.dot (Vec3.sub p (mpos m)) (Vec3.sub p (mpos m))) / c0,
         fun m => sqrtF (Vec3.dot (Vec3.sub p (mpos m)) (Vec3.sub p (mpos m)))) := by
  unfold newtonSolve
  have hone : maxAbs M (fun _ => (1 : ℚ)) > epslim := by
    rw [maxAbs_const_one M hM]; exact heps
  have hrm1 : ∀ te : ℕ → ℚ, ∀ m, trajRm sqrtF trLoc mpos te m
      = sqrtF (Vec3.dot (Vec3.sub p (mpos m)) (Vec3.sub p (mpos m))) := by
    intro te m
    simp [trajRm, hloc]
  have hmr : ∀ te : ℕ → ℚ, ∀ m, trajMr sqrtF trLoc trDer c0 te m = 0 := by
    intro te m
    simp [trajMr, hder, Vec3.dot]
  have heps1 : ∀ m, newtonEps sqrtF trLoc trDer mpos c0 t t m
      = sqrtF (Vec3.dot (Vec3.sub p (mpos m)) (Vec3.sub p (mpos m))) / c0 := by
    intro m
    simp [newtonEps, hrm1, hmr]
  show nrLoop M sqrtF trLoc trDer mpos c0 epslim t (99 + 1) t (fun _ => 1) (fun _ => 0) = _
  rw [nrLoop_succ_step M sqrtF trLoc trDer mpos c0 epslim t 99 t (fun _ => 1) (fun _ => 0)
    hone]
  simp only [heps1, hrm1]
  exact nrLoop_fixpoint M sqrtF trLoc trDer mpos c0 epslim t
    (fun m => t m - sqrtF (Vec3.dot (Vec3.sub p (mpos m)) (Vec3.sub p (mpos m))) / c0)
    (fun m => sqrtF (Vec3.dot (Vec3.sub p (mpos m)) (Vec3.sub p (mpos m))))
    (fun m => by simp [newtonEps, hrm1, hmr])
    (funext (fun m => hrm1 _ m)) 99 _

/-- C5: the retarded-time solver (embedded as `newtonSolve`: `te`
initialized to the receiving time `t`, at most 100 iterations of
`te -= eps` with `eps = (te + r/c0 - t)/(1 + Mr)`, early exit once
`max |eps|` is no longer above the tolerance, fuel exhaustion non-fatal)
reaches `te = t - r/c0` exactly for a stationary trajectory (constant
position, zero velocity), with `r` the source-to-mic distance; and the
receiving time advanced by `tStep` grows by exactly `1/sample_freq` per
sample. -/
theorem claim_C5_stationary_retarded_time (M : ℕ) (sqrtF : ℚ → ℚ) (trLoc trDer : ℚ → Vec3)
    (mpos : ℕ → Vec3) (c0 epslim : ℚ) (t : ℕ → ℚ) (p : Vec3) (sample_freq : ℚ)
    (hM : 1 ≤ M) (hloc : ∀ s, trLoc s = p) (hder : ∀ s, trDer s = ⟨0, 0, 0⟩)
    (heps : epslim < 1) :
    newtonSolve M sqrtF trLoc trDer mpos c0 epslim t
      = (fun m => t m - sqrtF (Vec3.dot (Vec3.sub p (mpos m)) (Vec3.sub p (mpos m))) / c0,
         fun m => sqrtF (Vec3.dot (Vec3.sub p (mpos m)) (Vec3.sub p (mpos m))))
    ∧ ∀ (j m : ℕ), (MovingPointSource.tStep sample_freq)^[j] t m
        = t m + j * (1 / sample_freq) := by
  constructor
  · exact newtonSolve_stationary M sqrtF trLoc trDer mpos c0 epslim t p hM hloc hder heps
  · intro j
    induction j with
    | zero => intro m; simp
    | succ j ih =>
        intro m
        rw [Function.iterate_succ_apply', MovingPointSource.tStep, ih m]
        push_cast
        ring

/-- Witness for C5: one mic at the origin, source fixed at `(0,0,1)`. -/
theorem claim_C5_witness :
    ((1 : ℕ) ≤ 1 ∧ (∀ s : ℚ, (fun _ : ℚ => (⟨0, 0, 1⟩ : Vec3)) s = ⟨0, 0, 1⟩)
      ∧ (∀ s : ℚ, (fun _ : ℚ => (⟨0, 0, 0⟩ : Vec3)) s = ⟨0, 0, 0⟩) ∧ (1 / 2 : ℚ) < 1)
    ∧ (newtonSolve 1 id (fun _ => ⟨0, 0, 1⟩) (fun _ => ⟨0, 0, 0⟩) (fun _ => ⟨0, 0, 0⟩) 1
          (1 / 2) (fun _ => 0)
        = (fun m => (fun _ : ℕ => (0 : ℚ)) m
              - id (Vec3.dot (Vec3.sub ⟨0, 0, 1⟩ ((fun _ : ℕ => (⟨0, 0, 0⟩ : Vec3)) m))
                  (Vec3.sub ⟨0, 0, 1⟩ ((fun _ : ℕ => (⟨0, 0, 0⟩ : Vec3)) m))) / 1,
           fun m => id (Vec3.dot (Vec3.sub ⟨0, 0, 1⟩ ((fun _ : ℕ => (⟨0, 0, 0⟩ : Vec3)) m))
              (Vec3.sub ⟨0, 0, 1⟩ ((fun _ : ℕ => (⟨0, 0, 0⟩ : Vec3)) m))))
      ∧ ∀ (j m : ℕ), (MovingPointSource.tStep 1)^[j] (fun _ => 0) m
          = (fun _ : ℕ => (0 : ℚ)) m + j * (1 / 1)) :=
  ⟨⟨Nat.le_refl 1, fun _ => rfl, fun _ => rfl, one_half_lt_one⟩,
    claim_C5_stationary_retarded_time 1 id (fun _ => ⟨0, 0, 1⟩) (fun _ => ⟨0, 0, 0⟩)
      (fun _ => ⟨0, 0, 0⟩) 1 (1 / 2) (fun _ => 0) ⟨0, 0, 1⟩ 1 (Nat.le_refl 1)
      (fun _ => rfl) (fun _ => rfl) one_half_lt_one⟩

namespace PointSource

/-- The fractional sample index of mic `m` at output sample `j` (the loop
advances `ind` by one per sample). -/
def indAt (ind : ℕ → ℚ) (j : ℕ) : ℕ → ℚ := fun m => ind m + j

/-- The per-sample admission check of the generator: every mic's nearest
integer index is inside numpy's allowed range `[-len, len)`. -/
def sampleOK (M : ℕ) (signal : List ℚ) (up : ℕ) (ind : ℕ → ℚ) : Bool :=
  (List.range M).all (fun m => pyIndexOK signal.length (truncToZero (1 / 2 + ind m * up)))

theorem indAt_zero (ind : ℕ → ℚ) : indAt ind 0 = ind :=
  funext fun m => by simp [indAt]

theorem indAt_shift (ind : ℕ → ℚ) (j : ℕ) :
    indAt (fun m => ind m + 1) j = indAt ind (j + 1) :=
  funext fun m => by simp [indAt]; push_cast; ring

/-- The generator never produces more samples than `numsamples`. -/
theorem loop_length_le (M : ℕ) (signal : List ℚ) (up : ℕ) (rm : ℕ → ℚ) :
    ∀ (n : ℕ) (ind : ℕ → ℚ), (loop M signal up rm n ind).length ≤ n := by
  intro n
  induction n with
  | zero => intro ind; simp [loop]
  | succ n ih =>
      intro ind
      simp only [loop]
      cases hL : lookupAll M signal (fun m => truncToZero (1 / 2 + ind m * up)) with
      | none => simp
      | some v =>
          simp only [List.length_cons]
          exact Nat.succ_le_succ (ih _)

/-- Sample `k` is produced by the generator loop exactly when every sample up
to `k` passes the numpy index-range check. -/
theorem loop_length_iff (M : ℕ) (signal : List ℚ) (up : ℕ) (rm : ℕ → ℚ) :
    ∀ (n : ℕ) (ind : ℕ → ℚ) (k : ℕ), k < n →
      (k < (loop M signal up rm n ind).length
        ↔ ∀ j, j ≤ k → sampleOK M signal up (indAt ind j) = true) := by
  intro n
  induction n with
  | zero => intro ind k hk; exact absurd hk (Nat.not_lt_zero k)
  | succ n ih =>
      intro ind k hk
      simp only [loop]
      cases hL : lookupAll M signal (fun m => truncToZero (1 / 2 + ind m * up)) with
      | none =>
          have hC : ¬ ((List.range M).all
              (fun m => pyIndexOK signal.length (truncToZero (1 / 2 + ind m * up))) = true) := by
            intro hc
            simp only [lookupAll, if_pos hc] at hL
            exact Option.some_ne_none _ hL
          simp only [List.length_nil]
          constructor
          · intro h; exact absurd h (Nat.not_lt_zero k)
          · intro h
            exfalso
            apply hC
            have h0 := h 0 (Nat.zero_le k)
            rw [indAt_zero] at h0
            exact h0
      | some v =>
          have hC : (List.range M).all
              (fun m => pyIndexOK signal.length (truncToZero (1 / 2 + ind m * up))) = true := by
            by_contra hc
            simp only [lookupAll, if_neg hc] at hL
            exact Option.noConfusion hL
          simp only [List.length_cons]
          cases k with
          | zero =>
              simp only [Nat.zero_lt_succ, true_iff]
              intro j hj
              have hj0 : j = 0 := Nat.le_zero.mp hj
              subst hj0
              rw [indAt_zero]
              exact hC
          | succ k =>
              rw [Nat.succ_lt_succ_iff, ih (fun m => ind m + 1) k (by omega)]
              constructor
              · intro h j hj
                cases j with
                | zero =>
                    rw [indAt_zero]
                    exact hC
                | succ j =>
                    rw [← indAt_shift]
                    exact h j (by omega)
              · intro h j hj
                rw [indAt_shift]
                exact h (j + 1) (by omega)

end PointSource

namespace MovingPointSource

/-- The per-sample admission check of the moving-source generator at
receiving time `t`: every mic's nearest integer index, derived from the
solved emission time, is inside numpy's allowed range `[-len, len)`. -/
def stepOK (M : ℕ) (signal : List ℚ) (up : ℕ) (sqrtF : ℚ → ℚ)
    (trLoc trDer : ℚ → Vec3) (mpos : ℕ → Vec3) (c0 start_t start sample_freq : ℚ)
    (t : ℕ → ℚ) : Bool :=
  (List.range M).all (fun m => pyIndexOK signal.length (truncToZero (1 / 2
    + ((newtonSolve M sqrtF trLoc trDer mpos c0 (epslim up sample_freq) t).1 m
        - start_t + start) * sample_freq * up)))

/-- The moving-source generator never produces more samples than
`numsamples`. -/
theorem movingLoop_length_le (M : ℕ) (signal : List ℚ) (up : ℕ) (sqrtF : ℚ → ℚ)
    (trLoc trDer : ℚ → Vec3) (mpos : ℕ → Vec3) (c0 start_t start sample_freq : ℚ) :
    ∀ (n : ℕ) (t : ℕ → ℚ),
      (loop M signal up sqrtF trLoc trDer mpos c0 start_t start sample_freq n t).length
        ≤ n := by
  intro n
  induction n with
  | zero => intro t; simp [loop]
  | succ n ih =>
      intro t
      simp only [loop]
      cases hL : lookupAll M signal (fun m => truncToZero (1 / 2
          + ((newtonSolve M sqrtF trLoc trDer mpos c0 (epslim up sample_freq) t).1 m
              - start_t + start) * sample_freq * up)) with
      | none => simp
      | some v =>
          simp only [List.length_cons]
          exact Nat.succ_le_succ (ih _)

/-- Sample `k` is produced by the moving-source generator loop exactly when
every sample up to `k` passes the numpy index-range check on the indices
derived from the solved emission times. -/
theorem movingLoop_length_iff (M : ℕ) (signal : List ℚ) (up : ℕ) (sqrtF : ℚ → ℚ)
    (trLoc trDer : ℚ → Vec3) (mpos : ℕ → Vec3) (c0 start_t start sample_freq : ℚ) :
    ∀ (n : ℕ) (t : ℕ → ℚ) (k : ℕ), k < n →
      (k < (loop M signal up sqrtF trLoc trDer mpos c0 start_t start sample_freq
            n t).length
        ↔ ∀ j, j ≤ k → stepOK M signal up sqrtF trLoc trDer mpos c0 start_t start
            sample_freq ((tStep sample_freq)^[j] t) = true) := by
  intro n
  induction n with
  | zero => intro t k hk; exact absurd hk (Nat.not_lt_zero k)
  | succ n ih =>
      intro t k hk
      simp only [loop]
      cases hL : lookupAll M signal (fun m => truncToZero (1 / 2
          + ((newtonSolve M sqrtF trLoc trDer mpos c0 (epslim up sample_freq) t).1 m
              - start_t + start) * sample_freq * up)) with
      | none =>
          have hC : ¬ ((List.range M).all (fun m => pyIndexOK signal.length
              (truncToZero (1 / 2
                + ((newtonSolve M sqrtF trLoc trDer mpos c0 (epslim up sample_freq) t).1 m
                    - start_t + start) * sample_freq * up))) = true) := by
            intro hc
            simp only [lookupAll, if_pos hc] at hL
            exact Option.some_ne_none _ hL
          simp only [List.length_nil]
          constructor
          · intro h; exact absurd h (Nat.not_lt_zero k)
          · intro h
            exfalso
            apply hC
            have h0 := h 0 (Nat.zero_le k)
            simp only [Function.iterate_zero, id] at h0
            exact h0
      | some v =>
          have hC : (List.range M).all (fun m => pyIndexOK signal.length
              (truncToZero (1 / 2
                + ((newtonSolve M sqrtF trLoc trDer mpos c0 (epslim up sample_freq) t).1 m
                    - start_t + start) * sample_freq * up))) = true := by
            by_contra hc
            simp only [lookupAll, if_neg hc] at hL
            exact Option.noConfusion hL
          simp only [List.length_cons]
          cases k with
          | zero =>
              simp only [Nat.zero_lt_succ, true_iff]
              intro j hj
              have hj0 : j = 0 := Nat.le_zero.mp hj
              subst hj0
              simp only [Function.iterate_zero, id]
              exact hC
          | succ k =>
              rw [Nat.succ_lt_succ_iff, ih (tStep sample_freq t) k (by omega)]
              constructor
              · intro h j hj
                cases j with
                | zero =>
                    simp only [Function.iterate_zero, id]
                    exact hC
                | succ j =>
                    rw [Function.iterate_succ_apply]
                    exact h j (by omega)
              · intro h j hj
                rw [← Function.iterate_succ_apply]
                exact h (j + 1) (by omega)

end MovingPointSource

/-- C7 (amended): generation stops, for BOTH the fixed and the moving point
source, exactly when some microphone's nearest-sample index falls outside
numpy's admissible range `[-len, len)` (the range whose violation raises the
caught `IndexError`); an index in `[-len, -1]` is outside the buffer's
reading positions `[0, len)` yet wraps around (Python negative indexing) and
does NOT stop generation.  For each generator, sample `k` is produced iff
every sample up to `k` passes the range check (applied, for the moving
source, to the indices derived from the solved emission times), the partial
output is returned (never more than `numsamples` samples), and no error
propagates (both generators are total). -/
theorem claim_C7_buffer_exhaustion_semantics (M : ℕ) (signal : List ℚ) (up : ℕ)
    (rm : ℕ → ℚ) (c start_t start sample_freq : ℚ) (sqrtF : ℚ → ℚ)
    (trLoc trDer : ℚ → Vec3) (mpos : ℕ → Vec3) (c0 : ℚ) (numsamples k : ℕ)
    (hk : k < numsamples) :
    ((k < (PointSource.result M signal up rm c start_t start sample_freq numsamples).length
        ↔ ∀ j, j ≤ k → PointSource.sampleOK M signal up
            (PointSource.indAt (PointSource.ind0 rm c start_t start sample_freq) j) = true)
      ∧ (PointSource.result M signal up rm c start_t start sample_freq numsamples).length
          ≤ numsamples)
    ∧ ((k < (MovingPointSource.result M signal up sqrtF trLoc trDer mpos c0 start_t start
            sample_freq numsamples).length
        ↔ ∀ j, j ≤ k → MovingPointSource.stepOK M signal up sqrtF trLoc trDer mpos c0
            start_t start sample_freq
            ((MovingPointSource.tStep sample_freq)^[j] (fun _ => start)) = true)
      ∧ (MovingPointSource.result M signal up sqrtF trLoc trDer mpos c0 start_t start
          sample_freq numsamples).length ≤ numsamples) := by
  refine ⟨⟨?_, ?_⟩, ?_, ?_⟩
  · exact PointSource.loop_length_iff M signal up rm numsamples _ k hk
  · exact PointSource.loop_length_le M signal up rm numsamples _
  · exact MovingPointSource.movingLoop_length_iff M signal up sqrtF trLoc trDer mpos c0
      start_t start sample_freq numsamples _ k hk
  · exact MovingPointSource.movingLoop_length_le M signal up sqrtF trLoc trDer mpos c0
      start_t start sample_freq numsamples _

/-- Witness for C7 at a concrete input for both generators. -/
theorem claim_C7_witness :
    0 < 1
    ∧ (((0 < (PointSource.result 1 [4, 7] 1 (fun _ => 2) 1 0 0 1 1).length
          ↔ ∀ j, j ≤ 0 → PointSource.sampleOK 1 [4, 7] 1
              (PointSource.indAt (PointSource.ind0 (fun _ => 2) 1 0 0 1) j) = true)
        ∧ (PointSource.result 1 [4, 7] 1 (fun _ => 2) 1 0 0 1 1).length ≤ 1)
      ∧ ((0 < (MovingPointSource.result 1 [4, 7] 1 id (fun _ => ⟨0, 0, 1⟩)
              (fun _ => ⟨0, 0, 0⟩) (fun _ => ⟨0, 0, 0⟩) 1 0 0 1 1).length
          ↔ ∀ j, j ≤ 0 → MovingPointSource.stepOK 1 [4, 7] 1 id (fun _ => ⟨0, 0, 1⟩)
              (fun _ => ⟨0, 0, 0⟩) (fun _ => ⟨0, 0, 0⟩) 1 0 0 1
              ((MovingPointSource.tStep 1)^[j] (fun _ => 0)) = true)
        ∧ (MovingPointSource.result 1 [4, 7] 1 id (fun _ => ⟨0, 0, 1⟩) (fun _ => ⟨0, 0, 0⟩)
            (fun _ => ⟨0, 0, 0⟩) 1 0 0 1 1).length ≤ 1)) :=
  ⟨Nat.zero_lt_one,
    claim_C7_buffer_exhaustion_semantics 1 [4, 7] 1 (fun _ => 2) 1 0 0 1 id
      (fun _ => ⟨0, 0, 1⟩) (fun _ => ⟨0, 0, 0⟩) (fun _ => ⟨0, 0, 0⟩) 1 1 0 Nat.zero_lt_one⟩

/-- Counterexample to C7 as stated: at a concrete input the only sample's
nearest-sample index is `-1`, outside the buffer's reading positions
`[0, len)`, yet generation does not stop: the sample is produced, its value
taken from the wrapped position `len - 1`. -/
theorem claim_C7_counterexample :
    truncToZero (1 / 2 + PointSource.ind0 (fun _ => 2) 1 0 0 1 0 * ((1 : ℕ) : ℚ)) = -1
    ∧ ¬((0 : ℤ) ≤ -1 ∧ (-1 : ℤ) < (([4, 7] : List ℚ).length : ℤ))
    ∧ (PointSource.result 1 [4, 7] 1 (fun _ => 2) 1 0 0 1 1).length = 1
    ∧ (PointSource.result 1 [4, 7] 1 (fun _ => 2) 1 0 0 1 1).getD 0 (fun _ => 0) 0
        = 7 / 2 := by
  have hind : ∀ m : ℕ, PointSource.ind0 (fun _ => (2 : ℚ)) 1 0 0 1 m = -2 := by
    intro m
    norm_num [PointSource.ind0]
  have hidx : ∀ m : ℕ,
      truncToZero (1 / 2 + PointSource.ind0 (fun _ => (2 : ℚ)) 1 0 0 1 m * ((1 : ℕ) : ℚ))
        = -1 := by
    intro m
    rw [hind m]
    have hq : (1 / 2 + (-2 : ℚ) * ((1 : ℕ) : ℚ)) = -(3 / 2) := by push_cast; norm_num
    rw [hq, truncToZero, if_neg (by norm_num)]
    have h32 : (-(-(3 / 2) : ℚ)) = 3 / 2 := by norm_num
    rw [h32, show ⌊(3 / 2 : ℚ)⌋ = 1 from by norm_num [Int.floor_eq_iff]]
  have hA : (List.range 1).all (fun m => pyIndexOK ([4, 7] : List ℚ).length
      (truncToZero (1 / 2
        + PointSource.ind0 (fun _ => (2 : ℚ)) 1 0 0 1 m * ((1 : ℕ) : ℚ)))) = true := by
    rw [show List.range 1 = [0] from rfl]
    simp only [List.all_cons, List.all_nil, hidx]
    norm_num [pyIndexOK]
  have hlook : lookupAll 1 [4, 7]
      (fun m => truncToZero (1 / 2
        + PointSource.ind0 (fun _ => (2 : ℚ)) 1 0 0 1 m * ((1 : ℕ) : ℚ)))
      = some (fun m => pyGet [4, 7] (truncToZero (1 / 2
          + PointSource.ind0 (fun _ => (2 : ℚ)) 1 0 0 1 m * ((1 : ℕ) : ℚ)))) := by
    unfold lookupAll
    rw [if_pos hA]
  have hres : PointSource.result 1 [4, 7] 1 (fun _ => 2) 1 0 0 1 1
      = [fun m => pyGet [4, 7] (truncToZero (1 / 2
          + PointSource.ind0 (fun _ => (2 : ℚ)) 1 0 0 1 m * ((1 : ℕ) : ℚ))) / 2] := by
    unfold PointSource.result
    show PointSource.loop 1 [4, 7] 1 (fun _ => 2) (0 + 1)
        (PointSource.ind0 (fun _ => 2) 1 0 0 1) = _
    simp only [PointSource.loop]
    rw [hlook]
  have hget : pyGet [4, 7] (-1) = 7 := by
    rw [pyGet, if_neg (by norm_num)]
    norm_num
  refine ⟨hidx 0, by norm_num, ?_, ?_⟩
  · rw [hres]
    rfl
  · rw [hres]
    simp only [List.getD, List.get?, Option.getD]
    rw [hidx 0, hget]

/-- The `k`-th produced sample of the fixed-source generator loop: the
looked-up upsampled signal value divided by the mic distance `rm`. -/
theorem PointSource.pointLoop_getD (M : ℕ) (signal : List ℚ) (up : ℕ) (rm : ℕ → ℚ) :
    ∀ (n : ℕ) (ind : ℕ → ℚ) (k : ℕ),
      k < (PointSource.loop M signal up rm n ind).length →
      (PointSource.loop M signal up rm n ind).getD k (fun _ => 0)
        = fun m => pyGet signal (truncToZero (1 / 2 + PointSource.indAt ind k m * up))
            / rm m := by
  intro n
  induction n with
  | zero =>
      intro ind k hk
      simp [PointSource.loop] at hk
  | succ n ih =>
      intro ind k hk
      simp only [PointSource.loop] at hk ⊢
      cases hL : lookupAll M signal (fun m => truncToZero (1 / 2 + ind m * up)) with
      | none =>
          rw [hL] at hk
          simp at hk
      | some v =>
          rw [hL] at hk
          have hv : v = fun m => pyGet signal (truncToZero (1 / 2 + ind m * up)) := by
            by_cases hC : (List.range M).all
                (fun m => pyIndexOK signal.length (truncToZero (1 / 2 + ind m * up))) = true
            · simp only [lookupAll, if_pos hC] at hL
              injection hL with h
              exact h.symm
            · simp only [lookupAll, if_neg hC] at hL
              exact Option.noConfusion hL
          subst hv
          cases k with
          | zero =>
              rw [List.getD_cons_zero]
              funext m
              simp [PointSource.indAt]
          | succ k =>
              simp only [List.length_cons] at hk
              rw [List.getD_cons_succ,
                ih (fun m => ind m + 1) k (Nat.lt_of_succ_lt_succ hk)]
              funext m
              rw [PointSource.indAt_shift]

/-- The `k`-th produced sample of the moving-source generator loop: the
looked-up upsampled signal value at the index derived from the solved
emission time, divided by the solver's distance array `rm`. -/
theorem MovingPointSource.movingLoop_getD (M : ℕ) (signal : List ℚ) (up : ℕ) (sqrtF : ℚ → ℚ)
    (trLoc trDer : ℚ → Vec3) (mpos : ℕ → Vec3) (c0 start_t start sample_freq : ℚ) :
    ∀ (n : ℕ) (t : ℕ → ℚ) (k : ℕ),
      k < (MovingPointSource.loop M signal up sqrtF trLoc trDer mpos c0 start_t start
          sample_freq n t).length →
      (MovingPointSource.loop M signal up sqrtF trLoc trDer mpos c0 start_t start sample_freq
          n t).getD k (fun _ => 0)
        = fun m => pyGet signal (truncToZero (1 / 2
            + ((newtonSolve M sqrtF trLoc trDer mpos c0
                  (MovingPointSource.epslim up sample_freq)
                  ((MovingPointSource.tStep sample_freq)^[k] t)).1 m - start_t + start)
              * sample_freq * up))
          / (newtonSolve M sqrtF trLoc trDer mpos c0 (MovingPointSource.epslim up sample_freq)
              ((MovingPointSource.tStep sample_freq)^[k] t)).2 m := by
  intro n
  induction n with
  | zero =>
      intro t k hk
      simp [MovingPointSource.loop] at hk
  | succ n ih =>
      intro t k hk
      simp only [MovingPointSource.loop] at hk ⊢
      cases hL : lookupAll M signal (fun m => truncToZero (1 / 2
          + ((newtonSolve M sqrtF trLoc trDer mpos c0 (MovingPointSource.epslim up sample_freq)
              t).1 m - start_t + start) * sample_freq * up)) with
      | none =>
          rw [hL] at hk
          simp at hk
      | some v =>
          rw [hL] at hk
          have hv : v = fun m => pyGet signal (truncToZero (1 / 2
              + ((newtonSolve M sqrtF trLoc trDer mpos c0
                  (MovingPointSource.epslim up sample_freq) t).1 m - start_t + start)
                * sample_freq * up)) := by
            by_cases hC : (List.range M).all (fun m => pyIndexOK signal.length
                (truncToZero (1 / 2
                  + ((newtonSolve M sqrtF trLoc trDer mpos c0
                      (MovingPointSource.epslim up sample_freq) t).1 m - start_t + start)
                    * sample_freq * up))) = true
            · simp only [lookupAll, if_pos hC] at hL
              injection hL with h
              exact h.symm
            · simp only [lookupAll, if_neg hC] at hL
              exact Option.noConfusion hL
          subst hv
          cases k with
          | zero =>
              rw [List.getD_cons_zero]
              simp only [Function.iterate_zero, id]
          | succ k =>
              simp only [List.length_cons] at hk
              rw [List.getD_cons_succ,
                ih (MovingPointSource.tStep sample_freq t) k (Nat.lt_of_succ_lt_succ hk)]
              funext m
              rw [← Function.iterate_succ_apply]

/-- C10: every produced output sample of both generators is the looked-up
upsampled signal value divided by the source-to-mic distance: `rm` from the
environment for the fixed source, and the solver's distance array (the
source position at the solved emission time to each mic) for the moving
source. -/
theorem claim_C10_inverse_distance_scaling (M : ℕ) (signal : List ℚ) (up : ℕ)
    (rm : ℕ → ℚ) (c start_t start sample_freq : ℚ) (sqrtF : ℚ → ℚ)
    (trLoc trDer : ℚ → Vec3) (mpos : ℕ → Vec3) (c0 : ℚ) (numsamples k : ℕ)
    (hpt : k < (PointSource.result M signal up rm c start_t start sample_freq
        numsamples).length)
    (hmv : k < (MovingPointSource.result M signal up sqrtF trLoc trDer mpos c0 start_t start
        sample_freq numsamples).length) :
    (PointSource.result M signal up rm c start_t start sample_freq numsamples).getD k
        (fun _ => 0)
      = (fun m => pyGet signal (truncToZero (1 / 2
          + PointSource.indAt (PointSource.ind0 rm c start_t start sample_freq) k m * up))
          / rm m)
    ∧ (MovingPointSource.result M signal up sqrtF trLoc trDer mpos c0 start_t start
        sample_freq numsamples).getD k (fun _ => 0)
      = fun m => pyGet signal (truncToZero (1 / 2
          + ((newtonSolve M sqrtF trLoc trDer mpos c0 (MovingPointSource.epslim up sample_freq)
              ((MovingPointSource.tStep sample_freq)^[k] (fun _ => start))).1 m
            - start_t + start) * sample_freq * up))
        / (newtonSolve M sqrtF trLoc trDer mpos c0 (MovingPointSource.epslim up sample_freq)
            ((MovingPointSource.tStep sample_freq)^[k] (fun _ => start))).2 m :=
  ⟨PointSource.pointLoop_getD M signal up rm numsamples _ k hpt,
    MovingPointSource.movingLoop_getD M signal up sqrtF trLoc trDer mpos c0 start_t start
      sample_freq numsamples _ k hmv⟩

/-- `array(0.5 + 0, dtype=long) = 0`. -/
theorem truncToZero_half : truncToZero (1 / 2 : ℚ) = 0 := by
  rw [truncToZero, if_pos (by norm_num)]
  norm_num [Int.floor_eq_iff]

/-- Witness for C10: one mic at the origin, fixed source at distance 1 and a
stationary "moving" source at `(0,0,1)`, one produced sample each. -/
theorem claim_C10_witness :
    (0 < (PointSource.result 1 [5] 1 (fun _ => 1) 1 (-1) 0 1 1).length
      ∧ 0 < (MovingPointSource.result 1 [5] 1 id (fun _ => ⟨0, 0, 1⟩) (fun _ => ⟨0, 0, 0⟩)
          (fun _ => ⟨0, 0, 0⟩) 1 (-1) 0 1 1).length)
    ∧ ((PointSource.result 1 [5] 1 (fun _ => 1) 1 (-1) 0 1 1).getD 0 (fun _ => 0)
        = (fun m => pyGet [5] (truncToZero (1 / 2
            + PointSource.indAt (PointSource.ind0 (fun _ => 1) 1 (-1) 0 1) 0 m * (1 : ℕ)))
            / (fun _ : ℕ => (1 : ℚ)) m)
      ∧ (MovingPointSource.result 1 [5] 1 id (fun _ => ⟨0, 0, 1⟩) (fun _ => ⟨0, 0, 0⟩)
          (fun _ => ⟨0, 0, 0⟩) 1 (-1) 0 1 1).getD 0 (fun _ => 0)
        = fun m => pyGet [5] (truncToZero (1 / 2
            + ((newtonSolve 1 id (fun _ => ⟨0, 0, 1⟩) (fun _ => ⟨0, 0, 0⟩)
                (fun _ => ⟨0, 0, 0⟩) 1 (MovingPointSource.epslim 1 1)
                ((MovingPointSource.tStep 1)^[0] (fun _ => 0))).1 m - (-1) + 0) * 1 * (1 : ℕ)))
          / (newtonSolve 1 id (fun _ => ⟨0, 0, 1⟩) (fun _ => ⟨0, 0, 0⟩) (fun _ => ⟨0, 0, 0⟩) 1
              (MovingPointSource.epslim 1 1)
              ((MovingPointSource.tStep 1)^[0] (fun _ => 0))).2 m) := by
  have hok : PointSource.sampleOK 1 [5] 1
      (PointSource.indAt (PointSource.ind0 (fun _ => 1) 1 (-1) 0 1) 0) = true := by
    have harg : ∀ m : ℕ,
        PointSource.indAt (PointSource.ind0 (fun _ => (1 : ℚ)) 1 (-1) 0 1) 0 m = 0 := by
      intro m
      norm_num [PointSource.indAt, PointSource.ind0]
    unfold PointSource.sampleOK
    rw [show List.range 1 = [0] from rfl]
    simp only [List.all_cons, List.all_nil, harg]
    norm_num [pyIndexOK, truncToZero_half]
  have hpt : 0 < (PointSource.result 1 [5] 1 (fun _ => 1) 1 (-1) 0 1 1).length := by
    unfold PointSource.result
    rw [PointSource.loop_length_iff 1 [5] 1 (fun _ => 1) 1 _ 0 Nat.zero_lt_one]
    intro j hj
    have hj0 : j = 0 := Nat.le_zero.mp hj
    subst hj0
    rw [PointSource.indAt_zero] at hok ⊢
    exact hok
  have hsolve := newtonSolve_stationary 1 id (fun _ => ⟨0, 0, 1⟩) (fun _ => ⟨0, 0, 0⟩)
    (fun _ => ⟨0, 0, 0⟩) 1 (MovingPointSource.epslim 1 1) (fun _ => (0 : ℚ)) ⟨0, 0, 1⟩
    (Nat.le_refl 1) (fun _ => rfl) (fun _ => rfl) (by norm_num [MovingPointSource.epslim])
  have hmv : 0 < (MovingPointSource.result 1 [5] 1 id (fun _ => ⟨0, 0, 1⟩)
      (fun _ => ⟨0, 0, 0⟩) (fun _ => ⟨0, 0, 0⟩) 1 (-1) 0 1 1).length := by
    unfold MovingPointSource.result
    show 0 < (MovingPointSource.loop 1 [5] 1 id (fun _ => ⟨0, 0, 1⟩) (fun _ => ⟨0, 0, 0⟩)
        (fun _ => ⟨0, 0, 0⟩) 1 (-1) 0 1 (0 + 1) (fun _ => 0)).length
    simp only [MovingPointSource.loop, hsolve]
    norm_num [lookupAll, pyIndexOK, Vec3.dot, Vec3.sub, truncToZero_half]
  exact ⟨⟨hpt, hmv⟩,
    claim_C10_inverse_distance_scaling 1 [5] 1 (fun _ => 1) 1 (-1) 0 1 id
      (fun _ => ⟨0, 0, 1⟩) (fun _ => ⟨0, 0, 0⟩) (fun _ => ⟨0, 0, 0⟩) 1 1 0 hpt hmv⟩
